import Mathlib

/-!
Verification of the `overexported` repository: a shallow embedding of the
post-load analysis pipeline of the `overexported` engine
(`internal/overexported/overexported.go`) and of the `deadcode` command
(reporting, marker-method suppression, and the `-whylive` path search),
together with proofs of the specification claims about them.

Go `map[K]V` values used only for membership are modelled as lists of keys;
the `exports` map, whose entries are enumerated, is modelled as an
association list with overwrite-on-insert, mirroring Go map assignment.
External collaborators (the loader, `go/types`, the regex engine, Unicode
tables) are modelled at their interfaces, as the specification directs.
-/

namespace OverDead

/-- Model of Go `unicode.IsUpper` as used through `token.IsExported`;
agrees with the Go function on ASCII letters. -/
def unicodeIsUpper (c : Char) : Bool := c.isUpper

/-- Model of Go `token.IsExported` / `ast.IsExported` /
`types.Object.Exported`: the first rune of the name is upper-case
(`utf8.DecodeRuneInString` of the empty string yields a non-upper rune). -/
def tokenIsExported (name : String) : Bool :=
  match name.data with
  | [] => false
  | c :: _ => unicodeIsUpper c

/-- Model of Go `strings.TrimSuffix`. -/
def goTrimSuffix (s suf : String) : String :=
  if suf.data.isSuffixOf s.data then
    ⟨s.data.take (s.data.length - suf.data.length)⟩
  else s

/-- Model of Go `strings.CutSuffix`: the trimmed string when `suf` is a
suffix of `s`, and `none` otherwise. -/
def goCutSuffix (s suf : String) : Option String :=
  if suf.data.isSuffixOf s.data then
    some ⟨s.data.take (s.data.length - suf.data.length)⟩
  else none

/-- Model of Go `strings.HasPrefix`. -/
def goHasPrefixOf (s pre : String) : Bool := pre.data.isPrefixOf s.data

/-- Model of Go byte-wise string comparison `a < b`; character-wise
lexicographic order, which agrees with Go on ASCII data. -/
def goStrLt (a b : String) : Bool := decide (a.data < b.data)

/-- Association-list insert with overwrite, modelling Go map assignment
`m[k] = v`. -/
def upsert {α β : Type} [DecidableEq α] (m : List (α × β)) (k : α) (v : β) :
    List (α × β) :=
  match m with
  | [] => [(k, v)]
  | (k', v') :: rest => if k' = k then (k, v) :: rest else (k', v') :: upsert rest k v

/-- Lookup in an association list, modelling Go map read `m[k]`. -/
def alookup {α β : Type} [DecidableEq α] (m : List (α × β)) (k : α) : Option β :=
  match m with
  | [] => none
  | (k', v') :: rest => if k' = k then some v' else alookup rest k

/-- Stable insertion used by `insSortBy`: `x` goes after every element
strictly before it and before everything else, as in a stable sort. -/
def ordInsert {α : Type} (less : α → α → Bool) (x : α) : List α → List α
  | [] => [x]
  | y :: ys => if less y x then y :: ordInsert less x ys else x :: y :: ys

/-- Stable insertion sort by a Go-style `less` comparator.  It produces
the unique stable order consistent with `less`, which is the output of
Go's sort for the comparators in this development. -/
def insSortBy {α : Type} (less : α → α → Bool) : List α → List α
  | [] => []
  | x :: xs => ordInsert less x (insSortBy less xs)

theorem perm_ordInsert {α : Type} (less : α → α → Bool) (x : α) (l : List α) :
    (ordInsert less x l).Perm (x :: l) := by
  induction l with
  | nil => simp [ordInsert]
  | cons y ys ih =>
    simp only [ordInsert]
    by_cases h : less y x = true
    · simp only [h, if_pos rfl]
      exact (List.Perm.cons y ih).trans (List.Perm.swap x y ys)
    · simp [h]

theorem perm_insSortBy {α : Type} (less : α → α → Bool) (l : List α) :
    (insSortBy less l).Perm l := by
  induction l with
  | nil => simp [insSortBy]
  | cons x xs ih =>
    simp only [insSortBy]
    exact (perm_ordInsert less x (insSortBy less xs)).trans (ih.cons x)

theorem mem_ordInsert {α : Type} (less : α → α → Bool) (x : α) (l : List α)
    (z : α) : z ∈ ordInsert less x l ↔ z = x ∨ z ∈ l := by
  have h := (perm_ordInsert less x l).mem_iff (a := z)
  simpa using h

theorem pairwise_ordInsert {α : Type} (less : α → α → Bool)
    (hneg : ∀ a b c, less b a = false → less c b = false → less c a = false)
    (hasym : ∀ a b, less a b = true → less b a = false)
    (x : α) (l : List α) (hl : l.Pairwise (fun a b => less b a = false)) :
    (ordInsert less x l).Pairwise (fun a b => less b a = false) := by
  induction l with
  | nil => simp [ordInsert]
  | cons y ys ih =>
    rcases List.pairwise_cons.mp hl with ⟨hy, hys⟩
    simp only [ordInsert]
    by_cases h : less y x = true
    · simp only [h, if_pos rfl]
      refine List.pairwise_cons.mpr ⟨?_, ih hys⟩
      intro z hz
      rcases (mem_ordInsert less x ys z).mp hz with hzx | hzy
      · rw [hzx]; exact hasym y x h
      · exact hy z hzy
    · simp only [h]
      have hyx : less y x = false := by
        cases h' : less y x with
        | false => rfl
        | true => exact absurd h' h
      refine List.pairwise_cons.mpr ⟨?_, hl⟩
      intro z hz
      rcases List.mem_cons.mp hz with hzy | hzys
      · rw [hzy]; exact hyx
      · exact hneg x y z hyx (hy z hzys)

theorem pairwise_insSortBy {α : Type} (less : α → α → Bool)
    (hneg : ∀ a b c, less b a = false → less c b = false → less c a = false)
    (hasym : ∀ a b, less a b = true → less b a = false)
    (l : List α) :
    (insSortBy less l).Pairwise (fun a b => less b a = false) := by
  induction l with
  | nil => simp [insSortBy]
  | cons x xs ih => exact pairwise_ordInsert less hneg hasym x (insSortBy less xs) ih

theorem filter_ordInsert_pos {α : Type} (less : α → α → Bool) (p : α → Bool)
    (x : α) (hx : p x = true) (hclass : ∀ z, p z = true → less z x = false)
    (l : List α) : (ordInsert less x l).filter p = x :: l.filter p := by
  induction l with
  | nil => simp [ordInsert, hx]
  | cons y ys ih =>
    simp only [ordInsert]
    by_cases h : less y x = true
    · have hpy : p y = false := by
        cases hpy : p y with
        | false => rfl
        | true => exact absurd (hclass y hpy) (by simp [h])
      simp [h, List.filter_cons, hpy, ih]
    · simp [h, List.filter_cons, hx]

theorem filter_ordInsert_neg {α : Type} (less : α → α → Bool) (p : α → Bool)
    (x : α) (hx : p x = false) (l : List α) :
    (ordInsert less x l).filter p = l.filter p := by
  induction l with
  | nil => simp [ordInsert, hx]
  | cons y ys ih =>
    simp only [ordInsert]
    by_cases h : less y x = true
    · simp [h, List.filter_cons, ih]
    · simp [h, List.filter_cons, hx]

/-- Stability of `insSortBy` on a tie class: elements selected by `p`,
which are mutually unordered by `less`, keep their relative order. -/
theorem filter_insSortBy_stable {α : Type} (less : α → α → Bool) (p : α → Bool)
    (hclass : ∀ a b, p a = true → p b = true → less a b = false)
    (l : List α) : (insSortBy less l).filter p = l.filter p := by
  induction l with
  | nil => simp [insSortBy]
  | cons x xs ih =>
    simp only [insSortBy]
    cases hx : p x with
    | false =>
      rw [filter_ordInsert_neg less p x hx, ih]
      simp [List.filter_cons, hx]
    | true =>
      rw [filter_ordInsert_pos less p x hx (fun z hz => hclass z x hz hx), ih]
      simp [List.filter_cons, hx]

theorem goTrimSuffix_append (p suf : String) : goTrimSuffix (p ++ suf) suf = p := by
  unfold goTrimSuffix
  rw [if_pos]
  · apply String.ext
    simp only [String.data_append, List.length_append]
    have h : p.data.length + suf.data.length - suf.data.length = p.data.length := by omega
    rw [h, List.take_left]
  · simp [String.data_append, List.isSuffixOf_iff_suffix]

theorem tokenIsExported_append (t s : String) (h : tokenIsExported t = true) :
    tokenIsExported (t ++ s) = true := by
  unfold tokenIsExported at *
  cases hd : t.data with
  | nil => rw [hd] at h; simp at h
  | cons c cs =>
    rw [hd] at h
    have hds : (t ++ s).data = c :: (cs ++ s.data) := by simp [String.data_append, hd]
    rw [hds]
    exact h

theorem append_ne_of_data_nonempty (p s : String) (hs : s.data ≠ []) :
    (p ++ s) ≠ p := by
  intro h
  have hlen := congrArg (fun q => q.data.length) h
  simp only [String.data_append, List.length_append] at hlen
  have : s.data.length = 0 := by omega
  exact hs (List.length_eq_zero.mp this)

/-- A source position, modelling `overexported.Position` (and the
`token.Position` data the tools compare). -/
structure Position where
  file : String
  line : Nat
  col : Nat
  deriving DecidableEq, Repr

/-- An over-exported finding, modelling `overexported.Export`. -/
structure Export where
  name : String
  kind : String
  position : Position
  pkgPath : String
  deriving DecidableEq, Repr

/-- The analysis result, modelling `overexported.Result`. -/
structure Result where
  exports : List Export
  deriving DecidableEq, Repr

/-- The analysis options, modelling `overexported.Options`.  The `Filter`
string is consumed by `buildFilterPattern` (regex compilation, an external
collaborator); the compiled filter reaches the engine as an optional
predicate, which is how it appears below. -/
structure Options where
  test : Bool
  generated : Bool
  exclude : List String
  deriving Repr

/-- Model of the shapes of `go/types.Type` values the engine inspects. -/
inductive Ty where
  | talias (pkg : Option String) (name : String) (rhs : Ty)
  | named (pkg : Option String) (name : String) (args : List Ty)
  | ptr (elem : Ty)
  | slice (elem : Ty)
  | array (elem : Ty)
  | chan (elem : Ty)
  | tmap (key elem : Ty)
  | sig (params results : List Ty)
  | tstruct (fields : List Ty)
  | iface (methods : List Ty)
  | basic

/-- Model of `matchPattern`: Go package-pattern matching. -/
def matchPattern (pat pkgPath : String) : Bool :=
  if pat = "./..." then true
  else
    match goCutSuffix pat "/..." with
    | some pre => pkgPath == pre || goHasPrefixOf pkgPath (pre ++ "/")
    | none => if pat = "..." then true else pat == pkgPath

/-- Model of `matchPackagePatterns`. -/
def matchPackagePatterns (pats : List String) (pkgPath : String) : Bool :=
  pats.any (fun pat => matchPattern pat pkgPath)

/-- Model of `normalizePkgPath`: with tests excluded, the external test
package `p_test` is collapsed onto `p`. -/
def normalizePkgPath (pkgPath : String) (opts : Options) : String :=
  if !opts.test then goTrimSuffix pkgPath "_test" else pkgPath

/-- The SSA instructions `collectTypeRefsFromFunc` inspects, each carrying
the type the source code reads off it. -/
inductive OInstr where
  | typeAssert (t : Ty)
  | convInstr (t : Ty)
  | changeTy (t : Ty)
  | alloc (t : Ty)
  | mkSlice (t : Ty)
  | mkMap (t : Ty)
  | mkChan (t : Ty)
  | fieldAddrInstr (x : Ty)
  | fieldInstr (x : Ty)
  | otherInstr

/-- An SSA function as the usage scan sees it (`*ssa.Function`):
package (possibly nil), origin package for generic instantiations,
name, receiver, signature, and the body instructions that contribute
type references. -/
structure OFn where
  pkg : Option String
  originPkg : Option String
  name : String
  recv : Option Ty
  params : List Ty
  results : List Ty
  body : List OInstr

/-- Model of `getSSAPkgPath`: a function's package path, falling back to
the generic origin's package for instantiations, else the empty string. -/
def getSSAPkgPath (fn : OFn) : String :=
  match fn.pkg with
  | some p => p
  | none =>
    match fn.originPkg with
    | some p => p
    | none => ""

/-- Model of `getReceiverTypeName`: the name of a named receiver type,
looking through pointers, else the empty string. -/
def getReceiverTypeName : Ty → String
  | .named _ name _ => name
  | .ptr elem => getReceiverTypeName elem
  | _ => ""

/-- Model of `buildSSAKey`: `pkg.Type.Method` for methods, `pkg.Name`
otherwise, and the empty string when the function has no package. -/
def buildSSAKey (fn : OFn) : String :=
  match fn.pkg with
  | none => ""
  | some pkgPath =>
    match fn.recv with
    | some recvTy =>
      let typeName := getReceiverTypeName recvTy
      if typeName = "" then pkgPath ++ "." ++ fn.name
      else pkgPath ++ "." ++ typeName ++ "." ++ fn.name
    | none => pkgPath ++ "." ++ fn.name

mutual

/-- Model of `collectTypeRefs`: the usage keys recorded for one type
mention made from `callerPkg`. -/
def collectTypeRefs (callerPkg : String) (targetPaths : List String) :
    Ty → List String
  | .talias pkg name rhs =>
    (match pkg with
     | some pkgPath =>
       if targetPaths.contains pkgPath && callerPkg != pkgPath &&
           tokenIsExported name then
         [pkgPath ++ "." ++ name]
       else []
     | none => []) ++ collectTypeRefs callerPkg targetPaths rhs
  | .named pkg name args =>
    (match pkg with
     | some pkgPath =>
       if targetPaths.contains pkgPath && callerPkg != pkgPath &&
           tokenIsExported name then
         [pkgPath ++ "." ++ name]
       else []
     | none => []) ++ collectTypeRefsList callerPkg targetPaths args
  | .ptr elem => collectTypeRefs callerPkg targetPaths elem
  | .slice elem => collectTypeRefs callerPkg targetPaths elem
  | .array elem => collectTypeRefs callerPkg targetPaths elem
  | .chan elem => collectTypeRefs callerPkg targetPaths elem
  | .tmap key elem =>
    collectTypeRefs callerPkg targetPaths key ++
      collectTypeRefs callerPkg targetPaths elem
  | .sig params results =>
    collectTypeRefsList callerPkg targetPaths params ++
      collectTypeRefsList callerPkg targetPaths results
  | .tstruct fields => collectTypeRefsList callerPkg targetPaths fields
  | .iface methods => collectTypeRefsList callerPkg targetPaths methods
  | .basic => []

/-- Keys recorded for a list of type mentions. -/
def collectTypeRefsList (callerPkg : String) (targetPaths : List String) :
    List Ty → List String
  | [] => []
  | t :: ts =>
    collectTypeRefs callerPkg targetPaths t ++
      collectTypeRefsList callerPkg targetPaths ts

end

/-- Model of `collectTypeRefsFromFunc`: parameter types, result types, and
the types read off body instructions. -/
def collectTypeRefsFromFunc (fn : OFn) (callerPkg : String)
    (targetPaths : List String) : List String :=
  collectTypeRefsList callerPkg targetPaths fn.params ++
    collectTypeRefsList callerPkg targetPaths fn.results ++
    (fn.body.map fun instr =>
      match instr with
      | .typeAssert t => collectTypeRefs callerPkg targetPaths t
      | .convInstr t => collectTypeRefs callerPkg targetPaths t
      | .changeTy t => collectTypeRefs callerPkg targetPaths t
      | .alloc t => collectTypeRefs callerPkg targetPaths t
      | .mkSlice t => collectTypeRefs callerPkg targetPaths t
      | .mkMap t => collectTypeRefs callerPkg targetPaths t
      | .mkChan t => collectTypeRefs callerPkg targetPaths t
      | .fieldAddrInstr x => collectTypeRefs callerPkg targetPaths x
      | .fieldInstr x => collectTypeRefs callerPkg targetPaths x
      | .otherInstr => []).flatten

/-- The RTA result as the engine consumes it (`rta.Result`): the retained
call graph as nodes with outgoing callees, the reachable-function set, and
the runtime-type set.  Nil functions are represented by `none`. -/
structure ORta where
  callGraph : List (Option OFn × List (Option OFn))
  reachable : List (Option OFn)
  runtimeTypes : List Ty

/-- Model of `findCrossPackageCalls`: usage keys for call-graph edges whose
(normalized) caller package differs from the target callee package. -/
def findCrossPackageCalls (opts : Options) (res : ORta)
    (targetPaths : List String) : List String :=
  (res.callGraph.map fun node =>
    match node.1 with
    | none => []
    | some fn =>
      match fn.pkg with
      | none => []
      | some callerRaw =>
        let callerPkg := normalizePkgPath callerRaw opts
        (node.2.map fun calleeO =>
          match calleeO with
          | none => []
          | some callee =>
            let calleePkg := getSSAPkgPath callee
            if calleePkg = "" || !targetPaths.contains calleePkg ||
                callerPkg == calleePkg then []
            else
              let key := buildSSAKey callee
              if key = "" then [] else [key]).flatten).flatten

/-- Model of `findTypeRefsInReachable`: type-reference usage keys from
every reachable function. -/
def findTypeRefsInReachable (opts : Options) (res : ORta)
    (targetPaths : List String) : List String :=
  (res.reachable.map fun fnO =>
    match fnO with
    | none => []
    | some fn =>
      let callerPkg := getSSAPkgPath fn
      if callerPkg = "" then []
      else collectTypeRefsFromFunc fn (normalizePkgPath callerPkg opts)
        targetPaths).flatten

/-- The function value `prog.MethodValue(sel)` yields for a method
selection: its synthetic tag and declaration position. -/
structure OMethodFn where
  synthetic : String
  pos : Position

/-- One selection of a `types.MethodSet`: the method object's name and the
corresponding SSA function, `none` modelling a nil `MethodValue`. -/
structure OMethodSel where
  objName : String
  methodVal : Option OMethodFn

/-- A member of `ssa.Package.Members`: function, type (with its value and
pointer method sets when the object is a `*types.Named`; `none` models a
type alias), global, or named constant. -/
inductive OMember where
  | fn (name synthetic : String) (pos : Position)
  | ty (name : String) (pos : Position)
      (msets : Option (List OMethodSel × List OMethodSel))
  | gbl (name : String) (pos : Position)
  | cst (name : String) (pos : Position)

/-- Generated-file lookup: the collector's `generated` map, where `none`
models the nil map passed when the `Generated` option is set. -/
def lookupGen (genMap : Option (List String)) (file : String) : Bool :=
  match genMap with
  | none => false
  | some gen => gen.contains file

/-- Model of `exportCollector.addExport`: record the export unless its
position lies in a generated file; the flag reports whether it was added. -/
def addExport (genMap : Option (List String)) (pkgPath : String)
    (exports : List (String × Export)) (name kind : String) (pos : Position) :
    List (String × Export) × Bool :=
  if lookupGen genMap pos.file then (exports, false)
  else
    (upsert exports (pkgPath ++ "." ++ name)
      { name := name, kind := kind, position := pos, pkgPath := pkgPath },
      true)

/-- Model of `exportCollector.collectMethodsFromMethodSet`. -/
def collectMethodsFromMethodSet (genMap : Option (List String))
    (pkgPath typeName : String) (exports : List (String × Export)) :
    List OMethodSel → List (String × Export)
  | [] => exports
  | sel :: rest =>
    if !tokenIsExported sel.objName then
      collectMethodsFromMethodSet genMap pkgPath typeName exports rest
    else
      match sel.methodVal with
      | none => collectMethodsFromMethodSet genMap pkgPath typeName exports rest
      | some f =>
        if f.synthetic != "" then
          collectMethodsFromMethodSet genMap pkgPath typeName exports rest
        else
          let methodName := typeName ++ "." ++ sel.objName
          let methodKey := pkgPath ++ "." ++ methodName
          match alookup exports methodKey with
          | some _ => collectMethodsFromMethodSet genMap pkgPath typeName exports rest
          | none =>
            collectMethodsFromMethodSet genMap pkgPath typeName
              (addExport genMap pkgPath exports methodName "method" f.pos).1 rest

/-- Model of `exportCollector.collectTypeExport`: the type itself, then,
unless it was skipped as generated or is an alias, the exported methods of
its value and pointer method sets. -/
def collectTypeExport (genMap : Option (List String)) (pkgPath : String)
    (exports : List (String × Export)) (name : String) (pos : Position)
    (msets : Option (List OMethodSel × List OMethodSel)) :
    List (String × Export) :=
  if !tokenIsExported name then exports
  else
    match addExport genMap pkgPath exports name "type" pos with
    | (exports', false) => exports'
    | (exports', true) =>
      match msets with
      | none => exports'
      | some (valueSet, ptrSet) =>
        collectMethodsFromMethodSet genMap pkgPath name
          (collectMethodsFromMethodSet genMap pkgPath name exports' valueSet)
          ptrSet

/-- Model of `exportCollector.collectPackageExports`, folded over the
package members. -/
def collectPackageExports (genMap : Option (List String)) (pkgPath : String)
    (exports : List (String × Export)) : List OMember → List (String × Export)
  | [] => exports
  | mem :: rest =>
    let exports' :=
      match mem with
      | .fn name synth pos =>
        if !tokenIsExported name || synth != "" then exports
        else (addExport genMap pkgPath exports name "func" pos).1
      | .ty name pos msets => collectTypeExport genMap pkgPath exports name pos msets
      | .gbl name pos =>
        if !tokenIsExported name then exports
        else (addExport genMap pkgPath exports name "var" pos).1
      | .cst name pos =>
        if !tokenIsExported name then exports
        else (addExport genMap pkgPath exports name "const" pos).1
    collectPackageExports genMap pkgPath exports' rest

/-- One entry of `TypesInfo.Uses`: the referenced object's package (nil
possible) and name; `none` models a nil object. -/
structure OUse where
  objPkg : Option String
  objName : String

/-- A loaded package as the engine consumes it (`packages.Package`):
path, syntax files tagged generated, SSA members when the SSA package
exists, and the type-checker use table when `TypesInfo` is non-nil. -/
structure OPkg where
  pkgPath : String
  files : List (String × Bool)
  ssaMembers : Option (List OMember)
  typesInfoUses : Option (List (Option OUse))

/-- Model of `findExternalUsageTypesInfo`: usage keys from the
type-checker cross-reference table. -/
def findExternalUsageTypesInfo (opts : Options) (allPkgs : List OPkg)
    (targetPaths : List String) : List String :=
  (allPkgs.map fun pkg =>
    match pkg.typesInfoUses with
    | none => []
    | some uses =>
      let callerPkg :=
        if !opts.test then goTrimSuffix pkg.pkgPath "_test" else pkg.pkgPath
      (uses.map fun useO =>
        match useO with
        | none => []
        | some u =>
          match u.objPkg with
          | none => []
          | some objPkg =>
            if !targetPaths.contains objPkg then []
            else if callerPkg != objPkg && tokenIsExported u.objName then
              [objPkg ++ "." ++ u.objName]
            else []).flatten).flatten

/-- Model of `findExternalUsage`: the union of the three usage sources, in
the order the source inserts them. -/
def findExternalUsage (opts : Options) (res : ORta) (allPkgs : List OPkg)
    (targetPaths : List String) : List String :=
  findCrossPackageCalls opts res targetPaths ++
    findTypeRefsInReachable opts res targetPaths ++
    findExternalUsageTypesInfo opts allPkgs targetPaths

/-- Model of `markRuntimeTypes`: named types of target packages in the
RTA runtime-type set are marked used. -/
def markRuntimeTypes (res : ORta) (targetPaths : List String)
    (used : List String) : List String :=
  used ++
    (res.runtimeTypes.map fun t =>
      match t with
      | .named (some pkgPath) name _ =>
        if targetPaths.contains pkgPath then [pkgPath ++ "." ++ name] else []
      | _ => []).flatten

/-- Model of `collectExportsSSA`: walk the loaded packages in order,
recording generated files and collecting exports of target packages.
When the `Generated` option is set the collector receives a nil
generated map (`none`), so nothing is filtered at collection time. -/
def collectExportsSSA (opts : Options) (allPkgs : List OPkg)
    (targetPaths : List String) : List (String × Export) × List String :=
  allPkgs.foldl
    (fun st pkg =>
      if !targetPaths.contains pkg.pkgPath then st
      else
        let gen' := st.2 ++ (pkg.files.filter (fun f => f.2)).map (fun f => f.1)
        match pkg.ssaMembers with
        | none => (st.1, gen')
        | some mems =>
          let genMap := if opts.generated then none else some gen'
          (collectPackageExports genMap pkg.pkgPath st.1 mems, gen'))
    ([], [])

/-- The scan in `loadPackages` over the user patterns: true as soon as a
pattern is neither `./...` nor `...` (the loop breaks there). -/
def loadPatternsScan : List String → Bool
  | [] => false
  | p :: rest => if p != "./..." && p != "..." then true else loadPatternsScan rest

/-- Model of the pattern preprocessing in `loadPackages`: the patterns the
loader is actually asked to resolve, and whether target matching is
needed. -/
def loadPatterns (patterns : List String) : List String × Bool :=
  if loadPatternsScan patterns then (["./..."], true) else (patterns, false)

/-- Model of `buildTargetPaths`: the loaded package paths, filtered by the
user patterns when target matching is needed. -/
def buildTargetPaths (allPkgs : List OPkg) (patterns : List String)
    (needsTargetMatching : Bool) : List String :=
  allPkgs.filterMap fun pkg =>
    if !needsTargetMatching || matchPackagePatterns patterns pkg.pkgPath then
      some pkg.pkgPath
    else none

/-- An SSA main package as `findEntryPoints` sees it: whether `Func "init"`
and `Func "main"` are present. -/
structure OMain where
  hasInit : Bool
  hasMain : Bool

/-- A root entry point: a package initialiser or a main function. -/
inductive RootTag where
  | initRoot
  | mainRoot
  deriving DecidableEq, Repr

/-- Model of `findEntryPoints`: fails when there is no main package, else
collects init and main roots per main package. -/
def findEntryPoints (mains : List OMain) : Except String (List RootTag) :=
  if mains.isEmpty then .error "no main packages found"
  else
    .ok (mains.foldl
      (fun acc m =>
        (acc ++ (if m.hasInit then [RootTag.initRoot] else [])) ++
          (if m.hasMain then [RootTag.mainRoot] else []))
      [])

/-- Model of `buildResult`: enumerate the exports map and keep entries that
are not externally used, not suppressed as generated, pass the filter, and
match no exclude pattern. -/
def buildResult (opts : Options) (exports : List (String × Export))
    (externallyUsed : List String) (generated : List String)
    (filter : Option (String → Bool)) : Result :=
  { exports :=
      exports.filterMap fun ke =>
        if externallyUsed.contains ke.1 then none
        else if !opts.generated && generated.contains ke.2.position.file then none
        else if (match filter with
                 | some f => !f ke.2.pkgPath
                 | none => false) then none
        else if !opts.exclude.isEmpty &&
            matchPackagePatterns opts.exclude ke.2.pkgPath then none
        else some ke.2 }

/-- The data `Run` consumes after the external collaborators have done
their work: the loaded packages, the SSA main packages, and the RTA
result (`none` models `rta.Analyze` returning nil). -/
structure OInput where
  allPkgs : List OPkg
  mains : List OMain
  rta : Option ORta

/-- Model of `Run` from after `packages.Load` and SSA construction: build
target paths, collect exports (returning an empty result early when there
are none), find entry points, consume the RTA result, compute external
usage, and build the result.  `filter` is the compiled filter pattern
(`buildFilterPattern` output). -/
def runCore (patterns : List String) (opts : Options) (inp : OInput)
    (filter : Option (String → Bool)) : Except String Result :=
  let needsTargetMatching := (loadPatterns patterns).2
  let targetPaths := buildTargetPaths inp.allPkgs patterns needsTargetMatching
  let exportsGen := collectExportsSSA opts inp.allPkgs targetPaths
  if exportsGen.1.isEmpty then .ok { exports := [] }
  else
    match findEntryPoints inp.mains with
    | .error e => .error e
    | .ok _roots =>
      match inp.rta with
      | none => .error "RTA analysis failed"
      | some res =>
        let externallyUsed :=
          markRuntimeTypes res targetPaths
            (findExternalUsage opts res inp.allPkgs targetPaths)
        .ok (buildResult opts exportsGen.1 externallyUsed exportsGen.2 filter)

/-- Model of the grouping and ordering performed by the command's
`printResult`: distinct package paths sorted ascending; within each
package the exports sorted by `strings.Compare` on the name. -/
def printResultGroups (res : Result) : List (String × List Export) :=
  let pkgs := insSortBy goStrLt (res.exports.map (fun e => e.pkgPath)).dedup
  pkgs.map fun pkg =>
    (pkg,
      insSortBy (fun a b => goStrLt a.name b.name)
        (res.exports.filter (fun e => e.pkgPath == pkg)))

/-- The usage keys contributed by the runtime-type set alone. -/
def runtimeTypeKeys (res : ORta) (targetPaths : List String) : List String :=
  (res.runtimeTypes.map fun t =>
    match t with
    | .named (some pkgPath) name _ =>
      if targetPaths.contains pkgPath then [pkgPath ++ "." ++ name] else []
    | _ => []).flatten

theorem markRuntimeTypes_eq_append (res : ORta) (targetPaths : List String)
    (used : List String) :
    markRuntimeTypes res targetPaths used = used ++ runtimeTypeKeys res targetPaths := rfl

/-- The target-path set `Run` computes for the given patterns and loaded
packages. -/
def targetPathsOf (patterns : List String) (inp : OInput) : List String :=
  buildTargetPaths inp.allPkgs patterns (loadPatterns patterns).2

/-- The exports map and generated-file set `Run` collects. -/
def exportsGenOf (patterns : List String) (opts : Options) (inp : OInput) :
    List (String × Export) × List String :=
  collectExportsSSA opts inp.allPkgs (targetPathsOf patterns inp)

theorem contains_eq_false_iff_not_mem (l : List String) (a : String) :
    l.contains a = false ↔ a ∉ l := by
  rw [← Bool.not_eq_true]
  exact not_congr List.elem_iff

/-- Membership in `buildResult`: an export of the map survives iff it is
not externally used, not suppressed as generated, passes the filter, and
matches no exclude pattern. -/
theorem mem_buildResult (opts : Options) (exports : List (String × Export))
    (used generated : List String) (filter : Option (String → Bool)) (e : Export) :
    e ∈ (buildResult opts exports used generated filter).exports ↔
      ∃ key, (key, e) ∈ exports ∧ key ∉ used ∧
        (opts.generated = true ∨ e.position.file ∉ generated) ∧
        (∀ f, filter = some f → f e.pkgPath = true) ∧
        matchPackagePatterns opts.exclude e.pkgPath = false := by
  simp only [buildResult, List.mem_filterMap]
  constructor
  · rintro ⟨⟨key, v⟩, hmem, hcond⟩
    simp at hcond
    obtain ⟨hused, hgen, hfil, hexc, rfl⟩ := hcond
    refine ⟨key, hmem, hused, ?_, ?_, ?_⟩
    · cases hg : opts.generated with
      | true => exact Or.inl rfl
      | false => exact Or.inr (hgen hg)
    · intro f hf
      rw [hf] at hfil
      simpa using hfil
    · cases hex : opts.exclude with
      | nil => rfl
      | cons a l => exact hex ▸ hexc (by simp [hex])
  · rintro ⟨key, hmem, hused, hgen, hfil, hexc⟩
    refine ⟨(key, e), hmem, ?_⟩
    have h1 : used.contains key = false :=
      (contains_eq_false_iff_not_mem _ _).mpr hused
    have hgen' : opts.generated = false → e.position.file ∉ generated := by
      intro hg
      rcases hgen with h | h
      · rw [hg] at h; exact absurd h (by simp)
      · exact h
    have h2 : (!opts.generated && generated.contains e.position.file) = false := by
      cases hg : opts.generated with
      | true => simp [hg]
      | false =>
        simp only [Bool.not_false, Bool.true_and]
        exact (contains_eq_false_iff_not_mem _ _).mpr (hgen' hg)
    cases filter with
    | none =>
      simp [h1, h2, hexc]
      exact ⟨hused, hgen'⟩
    | some f =>
      simp [h1, h2, hexc, hfil f rfl]
      exact ⟨hused, hgen'⟩

/-! ## Claim C1 (confirmed) -/

/-- Claim C1: an export collected from the target packages appears in the
result of `Run` exactly when it is not externally used (no cross-package
call edge, no type reference from a reachable function of another
package, no type-check cross-reference from another package, and not a
named type in the runtime-type set), it is not in a generated file unless
the `Generated` option is set, it passes the filter when one is in
effect, and it matches no exclude pattern. -/
theorem c1_result_membership (patterns : List String) (opts : Options)
    (inp : OInput) (filter : Option (String → Bool)) (rtaRes : ORta)
    (res : Result)
    (hrta : inp.rta = some rtaRes)
    (hrun : runCore patterns opts inp filter = .ok res) (e : Export) :
    e ∈ res.exports ↔
      ∃ key,
        (key, e) ∈ (exportsGenOf patterns opts inp).1 ∧
        key ∉ findCrossPackageCalls opts rtaRes (targetPathsOf patterns inp) ∧
        key ∉ findTypeRefsInReachable opts rtaRes (targetPathsOf patterns inp) ∧
        key ∉ findExternalUsageTypesInfo opts inp.allPkgs (targetPathsOf patterns inp) ∧
        key ∉ runtimeTypeKeys rtaRes (targetPathsOf patterns inp) ∧
        (opts.generated = true ∨ e.position.file ∉ (exportsGenOf patterns opts inp).2) ∧
        (∀ f, filter = some f → f e.pkgPath = true) ∧
        matchPackagePatterns opts.exclude e.pkgPath = false := by
  simp only [runCore] at hrun
  by_cases hempty : (collectExportsSSA opts inp.allPkgs
      (buildTargetPaths inp.allPkgs patterns (loadPatterns patterns).2)).1.isEmpty = true
  · rw [if_pos hempty] at hrun
    have hres : ({ exports := [] } : Result) = res := Except.ok.inj hrun
    rw [← hres]
    have hnil := List.isEmpty_iff.mp hempty
    simp only [exportsGenOf, targetPathsOf, hnil]
    simp
  · rw [if_neg hempty] at hrun
    simp only [findEntryPoints] at hrun
    by_cases hmains : inp.mains.isEmpty = true
    · rw [if_pos hmains] at hrun
      simp at hrun
    · rw [if_neg hmains, hrta] at hrun
      simp only [] at hrun
      have hres : buildResult opts
          (collectExportsSSA opts inp.allPkgs
            (buildTargetPaths inp.allPkgs patterns (loadPatterns patterns).2)).1
          (markRuntimeTypes rtaRes
            (buildTargetPaths inp.allPkgs patterns (loadPatterns patterns).2)
            (findExternalUsage opts rtaRes inp.allPkgs
              (buildTargetPaths inp.allPkgs patterns (loadPatterns patterns).2)))
          (collectExportsSSA opts inp.allPkgs
            (buildTargetPaths inp.allPkgs patterns (loadPatterns patterns).2)).2
          filter = res := Except.ok.inj hrun
      rw [← hres, mem_buildResult]
      simp only [exportsGenOf, targetPathsOf]
      apply exists_congr
      intro key
      constructor
      · rintro ⟨hmem, hused, hgen, hfil, hexc⟩
        rw [markRuntimeTypes_eq_append] at hused
        simp only [findExternalUsage, List.mem_append, not_or] at hused
        obtain ⟨⟨⟨hA, hB⟩, hC⟩, hD⟩ := hused
        exact ⟨hmem, hA, hB, hC, hD, hgen, hfil, hexc⟩
      · rintro ⟨hmem, hA, hB, hC, hD, hgen, hfil, hexc⟩
        refine ⟨hmem, ?_, hgen, hfil, hexc⟩
        rw [markRuntimeTypes_eq_append]
        simp only [findExternalUsage, List.mem_append, not_or]
        exact ⟨⟨⟨hA, hB⟩, hC⟩, hD⟩

/-- Witness for `c1_result_membership`: a one-package program whose sole
export `P.Foo` is unused, so it appears in the result and the
characterization applies to it. -/
theorem c1_result_membership_witness :
    ({ name := "Foo", kind := "func",
       position := { file := "a.go", line := 1, col := 1 },
       pkgPath := "p" } : Export) ∈
      ({ exports := [{ name := "Foo", kind := "func",
                       position := { file := "a.go", line := 1, col := 1 },
                       pkgPath := "p" }] } : Result).exports :=
  (c1_result_membership ["./..."]
      { test := false, generated := false, exclude := [] }
      { allPkgs := [{ pkgPath := "p",
                      files := [("a.go", false)],
                      ssaMembers := some [.fn "Foo" "" ⟨"a.go", 1, 1⟩],
                      typesInfoUses := some [] }],
        mains := [{ hasInit := true, hasMain := true }],
        rta := some { callGraph := [], reachable := [], runtimeTypes := [] } }
      none { callGraph := [], reachable := [], runtimeTypes := [] }
      { exports := [{ name := "Foo", kind := "func",
                      position := { file := "a.go", line := 1, col := 1 },
                      pkgPath := "p" }] } rfl (by rfl)
      { name := "Foo", kind := "func",
        position := { file := "a.go", line := 1, col := 1 },
        pkgPath := "p" }).mpr
    ⟨"p.Foo", by decide, by decide, by decide, by decide, by decide,
      Or.inr (by decide), fun f hf => Option.noConfusion hf, by decide⟩

/-! ## Claim C8 (confirmed) -/

/-- The export-rule discipline of a collected entry: its recorded name
satisfies the export rule, and a method name decomposes into an exported
type name and an exported method name. -/
def exportedNameOK (e : Export) : Prop :=
  tokenIsExported e.name = true ∧
    (e.kind = "method" →
      ∃ t m, e.name = t ++ "." ++ m ∧ tokenIsExported t = true ∧
        tokenIsExported m = true)

theorem upsert_preserves {α β : Type} [DecidableEq α] (Q : α × β → Prop)
    (m : List (α × β)) (k : α) (v : β)
    (hm : ∀ x ∈ m, Q x) (hv : Q (k, v)) : ∀ x ∈ upsert m k v, Q x := by
  induction m with
  | nil => simpa [upsert] using hv
  | cons kv rest ih =>
    intro x hx
    simp only [upsert] at hx
    by_cases hk : kv.1 = k
    · rw [if_pos hk] at hx
      rcases List.mem_cons.mp hx with h | h
      · rw [h]; exact hv
      · exact hm x (List.mem_cons_of_mem _ h)
    · rw [if_neg hk] at hx
      rcases List.mem_cons.mp hx with h | h
      · rw [h]; exact hm kv (List.mem_cons_self _ _)
      · exact ih (fun y hy => hm y (List.mem_cons_of_mem _ hy)) x h

theorem addExport_preserves (Q : Export → Prop)
    (genMap : Option (List String)) (pkgPath : String)
    (exports : List (String × Export)) (name kind : String) (pos : Position)
    (hm : ∀ x ∈ exports, Q x.2)
    (hv : Q { name := name, kind := kind, position := pos, pkgPath := pkgPath }) :
    ∀ x ∈ (addExport genMap pkgPath exports name kind pos).1, Q x.2 := by
  unfold addExport
  by_cases hg : lookupGen genMap pos.file = true
  · rw [if_pos hg]; exact hm
  · rw [if_neg hg]
    exact upsert_preserves (fun x => Q x.2) exports _ _ hm hv

theorem collectMethodsFromMethodSet_preserves
    (genMap : Option (List String)) (pkgPath typeName : String)
    (htype : tokenIsExported typeName = true) :
    ∀ (sels : List OMethodSel) (exports : List (String × Export)),
      (∀ x ∈ exports, exportedNameOK x.2) →
      ∀ x ∈ collectMethodsFromMethodSet genMap pkgPath typeName exports sels,
        exportedNameOK x.2 := by
  intro sels
  induction sels with
  | nil => intro exports hm; simpa [collectMethodsFromMethodSet] using hm
  | cons sel rest ih =>
    intro exports hm
    simp only [collectMethodsFromMethodSet]
    by_cases hsel : tokenIsExported sel.objName = true
    · simp only [hsel, Bool.not_true, Bool.false_eq_true, if_false]
      cases sel.methodVal with
      | none => exact ih exports hm
      | some f =>
        dsimp only
        by_cases hsyn : (f.synthetic != "") = true
        · rw [if_pos hsyn]; exact ih exports hm
        · rw [if_neg hsyn]
          cases halk : alookup exports (pkgPath ++ "." ++ (typeName ++ "." ++ sel.objName)) with
          | some _ => exact ih exports hm
          | none =>
            apply ih
            apply addExport_preserves
            · exact hm
            · constructor
              · exact tokenIsExported_append _ _ (tokenIsExported_append _ _ htype)
              · intro _
                exact ⟨typeName, sel.objName, rfl, htype, hsel⟩
    · have hsel' : tokenIsExported sel.objName = false := Bool.of_not_eq_true hsel
      simp only [hsel', Bool.not_false, if_true]
      exact ih exports hm

theorem collectTypeExport_preserves (genMap : Option (List String))
    (pkgPath : String) (exports : List (String × Export)) (name : String)
    (pos : Position) (msets : Option (List OMethodSel × List OMethodSel))
    (hm : ∀ x ∈ exports, exportedNameOK x.2) :
    ∀ x ∈ collectTypeExport genMap pkgPath exports name pos msets,
      exportedNameOK x.2 := by
  unfold collectTypeExport
  by_cases hname : tokenIsExported name = true
  · simp only [hname, Bool.not_true, Bool.false_eq_true, if_false]
    have hadd : ∀ x ∈ (addExport genMap pkgPath exports name "type" pos).1,
        exportedNameOK x.2 := by
      apply addExport_preserves _ _ _ _ _ _ _ hm
      refine ⟨hname, fun h => ?_⟩
      simp at h
    cases hres : addExport genMap pkgPath exports name "type" pos with
    | mk exports' added =>
      have hm' : ∀ x ∈ exports', exportedNameOK x.2 := by
        intro x hx
        have := hadd x
        rw [hres] at this
        exact this hx
      cases added with
      | false => exact hm'
      | true =>
        cases msets with
        | none => exact hm'
        | some vp =>
          cases vp with
          | mk valueSet ptrSet =>
            apply collectMethodsFromMethodSet_preserves genMap pkgPath name hname
            apply collectMethodsFromMethodSet_preserves genMap pkgPath name hname
            exact hm'
  · have hname' : tokenIsExported name = false := Bool.of_not_eq_true hname
    simp only [hname', Bool.not_false, if_true]
    exact hm

theorem collectPackageExports_preserves (genMap : Option (List String))
    (pkgPath : String) :
    ∀ (mems : List OMember) (exports : List (String × Export)),
      (∀ x ∈ exports, exportedNameOK x.2) →
      ∀ x ∈ collectPackageExports genMap pkgPath exports mems,
        exportedNameOK x.2 := by
  intro mems
  induction mems with
  | nil => intro exports hm; simpa [collectPackageExports] using hm
  | cons mem rest ih =>
    intro exports hm
    simp only [collectPackageExports]
    apply ih
    cases mem with
    | fn name synth pos =>
      dsimp only
      by_cases hc : (!tokenIsExported name || synth != "") = true
      · simp only [hc, if_true]; exact hm
      · rw [if_neg hc]
        have hname : tokenIsExported name = true := by
          rcases Bool.or_eq_false_iff.mp (Bool.of_not_eq_true hc) with ⟨h1, _⟩
          simpa using h1
        apply addExport_preserves _ _ _ _ _ _ _ hm
        refine ⟨hname, fun h => ?_⟩
        simp at h
    | ty name pos msets =>
      dsimp only
      exact collectTypeExport_preserves _ _ _ _ _ _ hm
    | gbl name pos =>
      dsimp only
      by_cases hname : tokenIsExported name = true
      · simp only [hname, Bool.not_true, Bool.false_eq_true, if_false]
        apply addExport_preserves _ _ _ _ _ _ _ hm
        refine ⟨hname, fun h => ?_⟩
        simp at h
      · have hname' : tokenIsExported name = false := Bool.of_not_eq_true hname
        simp only [hname', Bool.not_false, if_true]
        exact hm
    | cst name pos =>
      dsimp only
      by_cases hname : tokenIsExported name = true
      · simp only [hname, Bool.not_true, Bool.false_eq_true, if_false]
        apply addExport_preserves _ _ _ _ _ _ _ hm
        refine ⟨hname, fun h => ?_⟩
        simp at h
      · have hname' : tokenIsExported name = false := Bool.of_not_eq_true hname
        simp only [hname', Bool.not_false, if_true]
        exact hm

theorem collectExportsSSA_preserves (opts : Options) (targetPaths : List String) :
    ∀ (pkgs : List OPkg) (st : List (String × Export) × List String),
      (∀ x ∈ st.1, exportedNameOK x.2) →
      ∀ x ∈ (pkgs.foldl
        (fun st pkg =>
          if !targetPaths.contains pkg.pkgPath then st
          else
            let gen' := st.2 ++ (pkg.files.filter (fun f => f.2)).map (fun f => f.1)
            match pkg.ssaMembers with
            | none => (st.1, gen')
            | some mems =>
              let genMap := if opts.generated then none else some gen'
              (collectPackageExports genMap pkg.pkgPath st.1 mems, gen')) st).1,
        exportedNameOK x.2 := by
  intro pkgs
  induction pkgs with
  | nil => intro st hst; simpa using hst
  | cons pkg rest ih =>
    intro st hst
    simp only [List.foldl_cons]
    apply ih
    by_cases ht : (!targetPaths.contains pkg.pkgPath) = true
    · simp only [ht, if_true]; exact hst
    · rw [if_neg ht]
      cases pkg.ssaMembers with
      | none => exact hst
      | some mems =>
        exact collectPackageExports_preserves _ _ _ _ hst

/-- Claim C8: every identifier the engine reports has an exported name
under the export rule, applied uniformly; for a method, both the receiver
type name and the method name are exported.  Hence an unexported
identifier is never included, for any program and options. -/
theorem c8_only_exported_names_reported (patterns : List String)
    (opts : Options) (inp : OInput) (filter : Option (String → Bool))
    (res : Result) (hrun : runCore patterns opts inp filter = .ok res) :
    ∀ e ∈ res.exports, exportedNameOK e := by
  intro e he
  simp only [runCore] at hrun
  by_cases hempty : (collectExportsSSA opts inp.allPkgs
      (buildTargetPaths inp.allPkgs patterns (loadPatterns patterns).2)).1.isEmpty = true
  · rw [if_pos hempty] at hrun
    have hres : ({ exports := [] } : Result) = res := Except.ok.inj hrun
    rw [← hres] at he
    simp at he
  · rw [if_neg hempty] at hrun
    simp only [findEntryPoints] at hrun
    by_cases hmains : inp.mains.isEmpty = true
    · rw [if_pos hmains] at hrun
      simp at hrun
    · rw [if_neg hmains] at hrun
      cases hrta : inp.rta with
      | none => rw [hrta] at hrun; simp at hrun
      | some rtaRes =>
        rw [hrta] at hrun
        have hres := Except.ok.inj hrun
        rw [← hres] at he
        rcases (mem_buildResult _ _ _ _ _ _).mp he with ⟨key, hmem, _⟩
        exact collectExportsSSA_preserves opts _ inp.allPkgs ([], [])
          (by simp) (key, e) hmem

/-- Witness for `c8_only_exported_names_reported` on a concrete program
whose result contains the export `p.Foo`. -/
theorem c8_only_exported_names_reported_witness :
    exportedNameOK
      { name := "Foo", kind := "func",
        position := { file := "a.go", line := 1, col := 1 }, pkgPath := "p" } :=
  c8_only_exported_names_reported ["./..."]
    { test := false, generated := false, exclude := [] }
    { allPkgs := [{ pkgPath := "p",
                    files := [("a.go", false)],
                    ssaMembers := some [.fn "Foo" "" ⟨"a.go", 1, 1⟩],
                    typesInfoUses := some [] }],
      mains := [{ hasInit := true, hasMain := true }],
      rta := some { callGraph := [], reachable := [], runtimeTypes := [] } }
    none
    { exports := [{ name := "Foo", kind := "func",
                    position := { file := "a.go", line := 1, col := 1 },
                    pkgPath := "p" }] }
    (by rfl)
    { name := "Foo", kind := "func",
      position := { file := "a.go", line := 1, col := 1 }, pkgPath := "p" }
    (by decide)

/-! ## Claim C2 (confirmed) -/

theorem contains_eq_true_iff_mem (l : List String) (a : String) :
    l.contains a = true ↔ a ∈ l := List.elem_iff

/-- A library package `p` exporting one function, whose only reference is
a type-check use from the external test package `p_test`; the RTA result
is empty and one main package exists. -/
def extTestProgram (p n : String) (pos : Position) : OInput :=
  { allPkgs :=
      [{ pkgPath := p, files := [("lib.go", false)],
         ssaMembers := some [.fn n "" pos], typesInfoUses := some [] },
       { pkgPath := p ++ "_test", files := [], ssaMembers := none,
         typesInfoUses := some [some { objPkg := some p, objName := n }] }],
    mains := [{ hasInit := true, hasMain := true }],
    rta := some { callGraph := [], reachable := [], runtimeTypes := [] } }

/-- Claim C2: an exported identifier of `p` referenced only from the
external test package `p_test` is reported as over-exported when the
`Test` option is off (the test package collapses onto `p`), and is not
reported when the `Test` option is on (`p_test` counts as a distinct
package, so the reference is external use). -/
theorem c2_external_test_variant (p n : String) (pos : Position)
    (hn : tokenIsExported n = true) :
    (runCore ["./..."] { test := false, generated := false, exclude := [] }
        (extTestProgram p n pos) none =
      .ok { exports := [{ name := n, kind := "func", position := pos,
                          pkgPath := p }] }) ∧
    (runCore ["./..."] { test := true, generated := false, exclude := [] }
        (extTestProgram p n pos) none = .ok { exports := [] }) := by
  have hne' : ¬(p ++ "_test" : String) = p :=
    append_ne_of_data_nonempty p "_test" (by decide)
  have hne : ((p ++ "_test" : String) == p) = false := by
    rw [beq_eq_false_iff_ne]
    exact hne'
  have hc1 : ([p, p ++ "_test"] : List String).contains p = true :=
    (contains_eq_true_iff_mem _ _).mpr (by simp)
  have hc2 : ([p, p ++ "_test"] : List String).contains (p ++ "_test") = true :=
    (contains_eq_true_iff_mem _ _).mpr (by simp)
  have htrim : goTrimSuffix (p ++ "_test") "_test" = p := goTrimSuffix_append p "_test"
  have htp : buildTargetPaths (extTestProgram p n pos).allPkgs ["./..."] false =
      [p, p ++ "_test"] := by
    simp [buildTargetPaths, extTestProgram]
  have hcol : ∀ t, collectExportsSSA { test := t, generated := false, exclude := [] }
      (extTestProgram p n pos).allPkgs [p, p ++ "_test"] =
      ([(p ++ "." ++ n,
         { name := n, kind := "func", position := pos, pkgPath := p })], []) := by
    intro t
    simp [collectExportsSSA, extTestProgram, collectPackageExports, addExport,
      lookupGen, upsert, hn, hc1, hc2]
  constructor
  · simp only [runCore]
    have hload : (loadPatterns ["./..."]).2 = false := rfl
    rw [hload, htp, hcol false]
    simp only [List.isEmpty_cons, Bool.false_eq_true, if_false]
    simp only [findEntryPoints, extTestProgram]
    simp only [List.isEmpty_cons, Bool.false_eq_true, if_false]
    have hused : findExternalUsage { test := false, generated := false, exclude := [] }
        { callGraph := [], reachable := [], runtimeTypes := [] }
        (extTestProgram p n pos).allPkgs [p, p ++ "_test"] = [] := by
      simp [findExternalUsage, findCrossPackageCalls, findTypeRefsInReachable,
        findExternalUsageTypesInfo, extTestProgram, htrim, hc1]
    simp only [extTestProgram] at hused
    simp [markRuntimeTypes, hused, buildResult, matchPackagePatterns]
  · simp only [runCore]
    have hload : (loadPatterns ["./..."]).2 = false := rfl
    rw [hload, htp, hcol true]
    simp only [List.isEmpty_cons, Bool.false_eq_true, if_false]
    simp only [findEntryPoints, extTestProgram]
    simp only [List.isEmpty_cons, Bool.false_eq_true, if_false]
    have hused : findExternalUsage { test := true, generated := false, exclude := [] }
        { callGraph := [], reachable := [], runtimeTypes := [] }
        (extTestProgram p n pos).allPkgs [p, p ++ "_test"] = [p ++ "." ++ n] := by
      simp [findExternalUsage, findCrossPackageCalls, findTypeRefsInReachable,
        findExternalUsageTypesInfo, extTestProgram, hne, hne', hn, hc1]
    simp only [extTestProgram] at hused
    simp [markRuntimeTypes, hused, buildResult]

/-- Witness for `c2_external_test_variant` at a concrete package and
identifier. -/
theorem c2_external_test_variant_witness :
    runCore ["./..."] { test := false, generated := false, exclude := [] }
        (extTestProgram "example.com/lib" "OnlyUsedInTests" ⟨"lib.go", 3, 1⟩) none =
      .ok { exports := [{ name := "OnlyUsedInTests", kind := "func",
                          position := ⟨"lib.go", 3, 1⟩,
                          pkgPath := "example.com/lib" }] } ∧
    runCore ["./..."] { test := true, generated := false, exclude := [] }
        (extTestProgram "example.com/lib" "OnlyUsedInTests" ⟨"lib.go", 3, 1⟩) none =
      .ok { exports := [] } :=
  c2_external_test_variant "example.com/lib" "OnlyUsedInTests" ⟨"lib.go", 3, 1⟩
    (by decide)

/-! ## Claim C9 (corrected) -/

/-- Counterexample to claim C9: for the patterns argument
`["example.com/foo"]` the loader is asked to resolve `./...`, not the
user's pattern, so the patterns are not passed verbatim to the loader. -/
theorem c9_counterexample_patterns_not_verbatim :
    (loadPatterns ["example.com/foo"]).1 = ["./..."] ∧
      (loadPatterns ["example.com/foo"]).1 ≠ ["example.com/foo"] := by
  decide

/-- Claim C9, amended: the loader receives the user's patterns verbatim
only when every pattern is `./...` or `...`; otherwise it is asked for
`./...` and the engine itself filters the loaded packages against the
user's patterns to form the target set (besides interpreting patterns
for the exclude option). -/
theorem c9_amended_loader_patterns (patterns : List String)
    (allPkgs : List OPkg) :
    (loadPatterns patterns =
      if patterns.all (fun p => p == "./..." || p == "...") then (patterns, false)
      else (["./..."], true)) ∧
    (∀ path, path ∈ buildTargetPaths allPkgs patterns (loadPatterns patterns).2 ↔
      (∃ pkg ∈ allPkgs, pkg.pkgPath = path ∧
        ((loadPatterns patterns).2 = true →
          matchPackagePatterns patterns path = true))) := by
  constructor
  · have hscan : loadPatternsScan patterns =
        !(patterns.all (fun p => p == "./..." || p == "...")) := by
      induction patterns with
      | nil => simp [loadPatternsScan]
      | cons p rest ih =>
        simp only [loadPatternsScan, List.all_cons]
        by_cases h : (p != "./..." && p != "...") = true
        · rcases Bool.and_eq_true_iff.mp h with ⟨h1, h2⟩
          simp [bne_iff_ne] at h1 h2
          simp [h1, h2]
        · rcases Bool.and_eq_false_iff.mp (Bool.of_not_eq_true h) with h1 | h1
          · simp [bne] at h1
            simp [loadPatternsScan, h1, if_pos, h]
            simp [h1] at h ⊢
            exact ih
          · simp [bne] at h1
            simp [h1] at h ⊢
            exact ih
    unfold loadPatterns
    rw [hscan]
    by_cases hall : patterns.all (fun p => p == "./..." || p == "...") = true
    · simp [hall]
    · simp [Bool.of_not_eq_true hall]
  · intro path
    unfold buildTargetPaths
    simp only [List.mem_filterMap]
    constructor
    · rintro ⟨pkg, hmem, hcond⟩
      by_cases hm : (loadPatterns patterns).2 = true
      · simp [hm] at hcond
        rcases hcond with ⟨hmatch, hpath⟩
        exact ⟨pkg, hmem, hpath, fun _ => hpath ▸ hmatch⟩
      · have hm' : (loadPatterns patterns).2 = false := Bool.of_not_eq_true hm
        simp [hm'] at hcond
        exact ⟨pkg, hmem, hcond, fun h => absurd h hm⟩
    · rintro ⟨pkg, hmem, hpath, hmatch⟩
      subst hpath
      refine ⟨pkg, hmem, ?_⟩
      by_cases hm : (loadPatterns patterns).2 = true
      · simp [hm, hmatch hm]
      · have hm' : (loadPatterns patterns).2 = false := Bool.of_not_eq_true hm
        simp [hm']

/-- Witness for `c9_amended_loader_patterns` at a concrete input. -/
theorem c9_amended_loader_patterns_witness :
    "m/a" ∈ buildTargetPaths
      [{ pkgPath := "m/a", files := [], ssaMembers := none, typesInfoUses := none }]
      ["m/a"] (loadPatterns ["m/a"]).2 :=
  ((c9_amended_loader_patterns ["m/a"]
      [{ pkgPath := "m/a", files := [], ssaMembers := none, typesInfoUses := none }]).2
    "m/a").mpr
    ⟨_, List.mem_singleton.mpr rfl, rfl, fun _ => by decide⟩

/-! ## Claim C10 (confirmed) -/

/-- Claim C10: when the target packages yield no exports, `Run` returns a
successful empty result before ever looking for main packages; the
no-main-packages error can only arise when some export was collected. -/
theorem c10_empty_exports_precede_main_check (patterns : List String)
    (opts : Options) (inp : OInput) (filter : Option (String → Bool)) :
    ((collectExportsSSA opts inp.allPkgs
        (buildTargetPaths inp.allPkgs patterns (loadPatterns patterns).2)).1 = [] →
      runCore patterns opts inp filter = .ok { exports := [] }) ∧
    (runCore patterns opts inp filter = .error "no main packages found" →
      (collectExportsSSA opts inp.allPkgs
          (buildTargetPaths inp.allPkgs patterns (loadPatterns patterns).2)).1 ≠ [] ∧
        inp.mains = []) := by
  constructor
  · intro h
    simp [runCore, h]
  · intro h
    simp only [runCore] at h
    by_cases hempty :
        (collectExportsSSA opts inp.allPkgs
          (buildTargetPaths inp.allPkgs patterns (loadPatterns patterns).2)).1.isEmpty = true
    · rw [if_pos hempty] at h
      exact absurd h (by simp)
    · refine ⟨fun hnil => hempty (by simp [hnil]), ?_⟩
      rw [if_neg hempty] at h
      simp only [findEntryPoints] at h
      by_cases hmains : inp.mains.isEmpty = true
      · exact List.isEmpty_iff.mp hmains
      · rw [if_neg hmains] at h
        cases hrta : inp.rta with
        | none =>
          rw [hrta] at h
          exact absurd (Except.error.inj h) (by decide)
        | some res =>
          rw [hrta] at h
          exact Except.noConfusion h

/-- Witness for `c10_empty_exports_precede_main_check`: a program with no
packages (hence no exports) and no main package still yields an empty
successful result. -/
theorem c10_empty_exports_precede_main_check_witness :
    runCore ["./..."] { test := false, generated := false, exclude := [] }
      { allPkgs := [], mains := [], rta := none } none = .ok { exports := [] } :=
  (c10_empty_exports_precede_main_check ["./..."]
      { test := false, generated := false, exclude := [] }
      { allPkgs := [], mains := [], rta := none } none).1 rfl

/-! ## Claim C3 (code bug) -/

/-- Claim C3 fails on the code: `buildResult` enumerates the `exports` Go
map with `range`, whose iteration order is unspecified, and the JSON
printer does not sort.  Two enumerations of the same map (a permutation
with no duplicate keys, hence identical lookups) produce results whose
`Exports` lists differ, so the emitted JSON array order depends on map
iteration order. -/
theorem c3_result_order_depends_on_map_iteration :
    (([("p.A", { name := "A", kind := "func",
                 position := { file := "a.go", line := 1, col := 1 },
                 pkgPath := "p" }),
       ("p.B", { name := "B", kind := "func",
                 position := { file := "a.go", line := 2, col := 1 },
                 pkgPath := "p" })] : List (String × Export)).Perm
      [("p.B", { name := "B", kind := "func",
                 position := { file := "a.go", line := 2, col := 1 },
                 pkgPath := "p" }),
       ("p.A", { name := "A", kind := "func",
                 position := { file := "a.go", line := 1, col := 1 },
                 pkgPath := "p" })]) ∧
    (([("p.A", { name := "A", kind := "func",
                 position := { file := "a.go", line := 1, col := 1 },
                 pkgPath := "p" }),
       ("p.B", { name := "B", kind := "func",
                 position := { file := "a.go", line := 2, col := 1 },
                 pkgPath := "p" })] : List (String × Export)).map Prod.fst).Nodup ∧
    buildResult { test := false, generated := false, exclude := [] }
      ([("p.A", { name := "A", kind := "func",
                  position := { file := "a.go", line := 1, col := 1 },
                  pkgPath := "p" }),
        ("p.B", { name := "B", kind := "func",
                  position := { file := "a.go", line := 2, col := 1 },
                  pkgPath := "p" })] : List (String × Export)) [] [] none ≠
    buildResult { test := false, generated := false, exclude := [] }
      ([("p.B", { name := "B", kind := "func",
                  position := { file := "a.go", line := 2, col := 1 },
                  pkgPath := "p" }),
        ("p.A", { name := "A", kind := "func",
                  position := { file := "a.go", line := 1, col := 1 },
                  pkgPath := "p" })] : List (String × Export)) [] [] none := by
  refine ⟨?_, by decide, by decide⟩
  exact List.Perm.swap _ _ _

/-! ## The `deadcode` command: data model -/

/-- A `types.Package` as the deadcode tool reads it: path, declared name,
and the paths of its direct imports (`Imports()`). -/
structure DPkgRef where
  path : String
  name : String
  imports : List String
  deriving DecidableEq, Repr

/-- An opaque interface type collected per package for marker-method
identification; `types.Implements` is an external collaborator and is
passed in as a relation. -/
structure DIface where
  id : Nat
  deriving DecidableEq, Repr

/-- A source-level SSA function as the deadcode tool inspects it.  The
signature lists model `types.Tuple` values, whose empty form is the nil
tuple the source compares against; `bodyStmtCount` is the number of
statements of the declaration's body, `none` when the body is absent;
`anonIdx` is the chain of 0-based `AnonFuncs` indices for anonymous
functions (empty for source-level declarations). -/
structure DFn where
  name : String
  pkg : Option DPkgRef
  pos : Position
  recv : Option Ty
  sigParams : List Ty
  sigResults : List Ty
  bodyStmtCount : Option Nat
  anonIdx : List Nat

instance : Inhabited DFn :=
  ⟨{ name := "", pkg := none, pos := ⟨"", 0, 0⟩, recv := none,
     sigParams := [], sigResults := [], bodyStmtCount := none, anonIdx := [] }⟩

/-- Model of `types.Unalias`. -/
def unaliasTy : Ty → Ty
  | .talias _ _ rhs => unaliasTy rhs
  | t => t

/-- Model of `receiverNamed`: the named type behind a receiver of shape
`N`, `*N`, or aliases thereof. -/
def receiverNamedName (t : Ty) : Option String :=
  match unaliasTy t with
  | .ptr e =>
    (match unaliasTy e with
     | .named _ nm _ => some nm
     | _ => none)
  | .named _ nm _ => some nm
  | _ => none

/-- The `$N` suffix chain of an anonymous function (`N` is the 1-based
index among the parent's anonymous functions). -/
def anonSuffix : List Nat → String
  | [] => ""
  | i :: rest => "$" ++ toString (i + 1) ++ anonSuffix rest

/-- Model of `prettyName`: optional package qualifier, receiver type name
without pointer decoration, function name, anonymous-function indices. -/
def prettyName (fn : DFn) (qualified : Bool) : String :=
  (if qualified then
    match fn.pkg with
    | some p => p.path ++ "."
    | none => ""
   else "") ++
  (match fn.recv with
   | some recvTy => ((receiverNamedName recvTy).getD "") ++ "."
   | none => "") ++ fn.name ++ anonSuffix fn.anonIdx

/-- The deadcode configuration bits the modelled functions consume. -/
structure DConfig where
  generated : Bool
  whyLive : String
  deriving Repr

/-- Model of `isMarkerMethod`: an unexported, empty-bodied method with no
parameters or results whose receiver implements some interface declared
in the same package; `impl` models `types.Implements`. -/
def isMarkerMethod (impl : Ty → DIface → Bool) (fn : DFn)
    (interfaceTypes : List DIface) : Bool :=
  match fn.recv with
  | none => false
  | some recvTy =>
    if tokenIsExported fn.name then false
    else if !fn.sigParams.isEmpty then false
    else if !fn.sigResults.isEmpty then false
    else
      match fn.bodyStmtCount with
      | none => false
      | some k =>
        if 0 < k then false
        else interfaceTypes.any (fun iface => impl recvTy iface)

/-- One record of the deadcode JSON output (`jsonFunction`). -/
structure DJsonFunction where
  name : String
  position : Position
  generated : Bool
  marker : Bool
  deriving DecidableEq, Repr

/-- One package group of the deadcode JSON output (`jsonPackage`). -/
structure DJsonPackage where
  name : String
  path : String
  funcs : List DJsonFunction
  deriving DecidableEq, Repr

/-- The in-file comparator of `buildJSONPackages`: source-file path, then
declaration line. -/
def posLess (x y : Position) : Bool :=
  if x.file != y.file then goStrLt x.file y.file else decide (x.line < y.line)

/-- The per-package function ordering of `buildJSONPackages`
(`sort.Slice` by file then line). -/
def sortFnsByPos (fns : List DFn) : List DFn :=
  insSortBy (fun x y => posLess x.pos y.pos) fns

/-- The body of the `buildJSONPackages` per-function loop for one
function: skip functions of generated files (without `-generated`) and
marker methods; report the rest. -/
def buildJSONFunc1 (cfg : DConfig) (impl : Ty → DIface → Bool)
    (generated : List String) (interfaceTypes : String → List DIface)
    (fn : DFn) : Option DJsonFunction :=
  let gen := generated.contains fn.pos.file
  if gen && !cfg.generated then none
  else
    let marker := isMarkerMethod impl fn
      (match fn.pkg with
       | some p => interfaceTypes p.path
       | none => [])
    if marker then none
    else some { name := prettyName fn false, position := fn.pos,
                generated := gen, marker := marker }

/-- The `buildJSONPackages` per-function loop over a package's dead
functions. -/
def buildJSONFuncs (cfg : DConfig) (impl : Ty → DIface → Bool)
    (generated : List String) (interfaceTypes : String → List DIface)
    (fns : List DFn) : List DJsonFunction :=
  fns.filterMap (buildJSONFunc1 cfg impl generated interfaceTypes)

/-- The `buildJSONPackages` body for one package path: apply the filter,
sort the package's functions by file then line, run the per-function
loop, and drop empty groups. -/
def buildJSONPackage1 (cfg : DConfig) (impl : Ty → DIface → Bool)
    (byPkgPath : List (String × List DFn)) (filter : String → Bool)
    (generated : List String) (interfaceTypes : String → List DIface)
    (pkgpath : String) : Option DJsonPackage :=
  if !filter pkgpath then none
  else
    let fns := sortFnsByPos ((alookup byPkgPath pkgpath).getD [])
    let functions := buildJSONFuncs cfg impl generated interfaceTypes fns
    if functions.isEmpty then none
    else
      some { name := (match fns.head? with
                      | some fn => (match fn.pkg with
                                    | some p => p.name
                                    | none => "")
                      | none => ""),
             path := pkgpath, funcs := functions }

/-- Model of `buildJSONPackages`: package paths sorted ascending, then
the per-package body. -/
def buildJSONPackages (cfg : DConfig) (impl : Ty → DIface → Bool)
    (byPkgPath : List (String × List DFn)) (filter : String → Bool)
    (generated : List String) (interfaceTypes : String → List DIface) :
    List DJsonPackage :=
  (insSortBy goStrLt (byPkgPath.map (fun kv => kv.1))).filterMap
    (buildJSONPackage1 cfg impl byPkgPath filter generated interfaceTypes)

/-- Inversion for `buildJSONFunc1`: an emitted record comes from a
function that is not suppressed; in particular markers never emit. -/
theorem buildJSONFunc1_inv (cfg : DConfig) (impl : Ty → DIface → Bool)
    (generated : List String) (interfaceTypes : String → List DIface)
    (fn : DFn) (jf : DJsonFunction)
    (h : buildJSONFunc1 cfg impl generated interfaceTypes fn = some jf) :
    isMarkerMethod impl fn
      (match fn.pkg with
       | some p => interfaceTypes p.path
       | none => []) = false ∧
    jf = { name := prettyName fn false, position := fn.pos,
           generated := generated.contains fn.pos.file, marker := false } := by
  unfold buildJSONFunc1 at h
  by_cases h1 : (generated.contains fn.pos.file && !cfg.generated) = true
  · rw [if_pos h1] at h
    exact absurd h (by simp)
  · rw [if_neg h1] at h
    dsimp only at h
    by_cases h2 : isMarkerMethod impl fn
        (match fn.pkg with
         | some p => interfaceTypes p.path
         | none => []) = true
    · rw [if_pos h2] at h
      exact absurd h (by simp)
    · rw [if_neg h2] at h
      have h2' := Bool.of_not_eq_true h2
      rw [h2'] at h
      exact ⟨h2', (Option.some.inj h).symm⟩

/-- Inversion for `buildJSONPackage1`: the emitted group carries the key
as its path and the per-function loop's output as its functions. -/
theorem buildJSONPackage1_inv (cfg : DConfig) (impl : Ty → DIface → Bool)
    (byPkgPath : List (String × List DFn)) (filter : String → Bool)
    (generated : List String) (interfaceTypes : String → List DIface)
    (pkgpath : String) (r : DJsonPackage)
    (h : buildJSONPackage1 cfg impl byPkgPath filter generated interfaceTypes
      pkgpath = some r) :
    r.path = pkgpath ∧
    r.funcs = buildJSONFuncs cfg impl generated interfaceTypes
      (sortFnsByPos ((alookup byPkgPath pkgpath).getD [])) := by
  unfold buildJSONPackage1 at h
  by_cases h1 : (!filter pkgpath) = true
  · rw [if_pos h1] at h
    exact absurd h (by simp)
  · rw [if_neg h1] at h
    dsimp only at h
    by_cases h2 : (buildJSONFuncs cfg impl generated interfaceTypes
        (sortFnsByPos ((alookup byPkgPath pkgpath).getD []))).isEmpty = true
    · rw [if_pos h2] at h
      exact absurd h (by simp)
    · rw [if_neg h2] at h
      have := (Option.some.inj h).symm
      rw [this]
      exact ⟨rfl, rfl⟩

/-! ## Claim C4 (confirmed) -/

/-- Inversion for the per-function report loop: every emitted record comes
from an input function that is not suppressed, and markers are always
suppressed. -/
theorem mem_buildJSONFuncs_inv (cfg : DConfig) (impl : Ty → DIface → Bool)
    (generated : List String) (interfaceTypes : String → List DIface)
    (fns : List DFn) (jf : DJsonFunction)
    (h : jf ∈ buildJSONFuncs cfg impl generated interfaceTypes fns) :
    ∃ fn ∈ fns,
      isMarkerMethod impl fn
        (match fn.pkg with
         | some p => interfaceTypes p.path
         | none => []) = false ∧
      jf = { name := prettyName fn false, position := fn.pos,
             generated := generated.contains fn.pos.file, marker := false } := by
  rcases List.mem_filterMap.mp h with ⟨fn, hmem, hcond⟩
  exact ⟨fn, hmem, buildJSONFunc1_inv _ _ _ _ _ _ hcond⟩

/-- Claim C4: a function is a marker method exactly when it is a method,
unexported, with no parameters, no results, an empty body, and a receiver
implementing some interface of its package; and `deadcode` never reports
such a function — every emitted record stems from a function that is not
a marker method. -/
theorem c4_marker_methods_never_reported (cfg : DConfig)
    (impl : Ty → DIface → Bool) (byPkgPath : List (String × List DFn))
    (filter : String → Bool) (generated : List String)
    (interfaceTypes : String → List DIface) :
    (∀ (fn : DFn) (ifaces : List DIface),
      isMarkerMethod impl fn ifaces = true ↔
        ∃ recvTy, fn.recv = some recvTy ∧
          tokenIsExported fn.name = false ∧
          fn.sigParams = [] ∧ fn.sigResults = [] ∧
          fn.bodyStmtCount = some 0 ∧
          ∃ iface ∈ ifaces, impl recvTy iface = true) ∧
    (∀ pkgRec ∈ buildJSONPackages cfg impl byPkgPath filter generated interfaceTypes,
      ∀ jf ∈ pkgRec.funcs,
        ∃ fn ∈ (alookup byPkgPath pkgRec.path).getD [],
          isMarkerMethod impl fn
            (match fn.pkg with
             | some p => interfaceTypes p.path
             | none => []) = false ∧
          jf = { name := prettyName fn false, position := fn.pos,
                 generated := generated.contains fn.pos.file,
                 marker := false }) := by
  constructor
  · intro fn ifaces
    cases hrecv : fn.recv with
    | none => simp [isMarkerMethod, hrecv]
    | some recvTy =>
      simp only [isMarkerMethod, hrecv]
      constructor
      · intro h
        by_cases h1 : tokenIsExported fn.name = true
        · rw [if_pos h1] at h; exact absurd h (by simp)
        · rw [if_neg h1] at h
          by_cases h2 : (!fn.sigParams.isEmpty) = true
          · rw [if_pos h2] at h; exact absurd h (by simp)
          · rw [if_neg h2] at h
            by_cases h3 : (!fn.sigResults.isEmpty) = true
            · rw [if_pos h3] at h; exact absurd h (by simp)
            · rw [if_neg h3] at h
              cases hbody : fn.bodyStmtCount with
              | none => rw [hbody] at h; exact absurd h (by simp)
              | some k =>
                rw [hbody] at h
                dsimp only at h
                by_cases hk : 0 < k
                · rw [if_pos hk] at h; exact absurd h (by simp)
                · rw [if_neg hk] at h
                  have hk0 : k = 0 := by omega
                  rcases List.any_eq_true.mp h with ⟨iface, hifm, himpl⟩
                  refine ⟨recvTy, rfl, Bool.of_not_eq_true h1, ?_, ?_,
                    by rw [hk0], iface, hifm, himpl⟩
                  · have := Bool.of_not_eq_true h2
                    simp at this
                    exact this
                  · have := Bool.of_not_eq_true h3
                    simp at this
                    exact this
      · rintro ⟨recvTy', heq, hname, hparams, hresults, hbody, iface, hifm, himpl⟩
        have hrt : recvTy' = recvTy := (Option.some.inj heq).symm
        rw [hrt] at himpl
        simp [hname, hparams, hresults, hbody, List.any_eq_true]
        exact ⟨iface, hifm, himpl⟩
  · intro pkgRec hrec jf hjf
    rcases List.mem_filterMap.mp hrec with ⟨pkgpath, _hpmem, hcond⟩
    obtain ⟨hpath, hfuncs⟩ := buildJSONPackage1_inv _ _ _ _ _ _ _ _ hcond
    rw [hfuncs] at hjf
    rcases mem_buildJSONFuncs_inv _ _ _ _ _ _ hjf with ⟨fn, hfmem, hmk, hjfeq⟩
    refine ⟨fn, ?_, hmk, hjfeq⟩
    rw [hpath]
    exact (perm_insSortBy _ _).mem_iff.mp hfmem

/-- Witness for `c4_marker_methods_never_reported`: a one-package,
one-function report. -/
theorem c4_marker_methods_never_reported_witness :
    ∃ fn ∈ (alookup
        [("p", [({ name := "F", pkg := some ⟨"p", "p", []⟩,
                   pos := ⟨"a.go", 1, 1⟩, recv := none, sigParams := [],
                   sigResults := [], bodyStmtCount := some 1,
                   anonIdx := [] } : DFn)])] "p").getD [],
      isMarkerMethod (fun _ _ => false) fn
        (match fn.pkg with
         | some p => (fun _ => ([] : List DIface)) p.path
         | none => []) = false ∧
      ({ name := "F", position := ⟨"a.go", 1, 1⟩, generated := false,
         marker := false } : DJsonFunction) =
        { name := prettyName fn false, position := fn.pos,
          generated := ([] : List String).contains fn.pos.file,
          marker := false } := by
  have h := (c4_marker_methods_never_reported
    { generated := false, whyLive := "" } (fun _ _ => false)
    [("p", [({ name := "F", pkg := some ⟨"p", "p", []⟩,
               pos := ⟨"a.go", 1, 1⟩, recv := none, sigParams := [],
               sigResults := [], bodyStmtCount := some 1,
               anonIdx := [] } : DFn)])]
    (fun _ => true) [] (fun _ => [])).2
  exact h
    { name := "p", path := "p",
      funcs := [{ name := "F", position := ⟨"a.go", 1, 1⟩,
                  generated := false, marker := false }] }
    (by decide)
    { name := "F", position := ⟨"a.go", 1, 1⟩, generated := false,
      marker := false }
    (by decide)

/-! ## Claim C7 (corrected) -/

theorem goStrLt_asymm (a b : String) (h : goStrLt a b = true) :
    goStrLt b a = false := by
  simp only [goStrLt, decide_eq_true_eq] at h
  simp only [goStrLt, decide_eq_false_iff_not]
  exact lt_asymm h

theorem goStrLt_negtrans (a b c : String) (h1 : goStrLt b a = false)
    (h2 : goStrLt c b = false) : goStrLt c a = false := by
  simp only [goStrLt, decide_eq_false_iff_not] at h1 h2 ⊢
  intro h3
  exact h2 (lt_of_lt_of_le h3 (not_lt.mp h1))

theorem posLess_iff (x y : Position) :
    posLess x y = true ↔
      (x.file.data < y.file.data ∨ (x.file = y.file ∧ x.line < y.line)) := by
  unfold posLess
  by_cases heq : x.file = y.file
  · rw [heq]
    simp [goStrLt, lt_irrefl]
  · have hne : (x.file != y.file) = true := bne_iff_ne.mpr heq
    simp [hne, goStrLt, heq]

theorem posLess_asymm (x y : Position) (h : posLess x y = true) :
    posLess y x = false := by
  rw [← Bool.not_eq_true, posLess_iff]
  rw [posLess_iff] at h
  rintro (h' | ⟨hf, hl⟩)
  · rcases h with h'' | ⟨hf, _⟩
    · exact lt_asymm h' h''
    · rw [hf] at h'; exact lt_irrefl _ h'
  · rcases h with h'' | ⟨hf2, hl2⟩
    · rw [hf] at h''; exact lt_irrefl _ h''
    · omega

theorem posLess_negtrans (x y z : Position) (h1 : posLess y x = false)
    (h2 : posLess z y = false) : posLess z x = false := by
  rw [← Bool.not_eq_true, posLess_iff] at h1 h2
  rw [← Bool.not_eq_true, posLess_iff]
  push_neg at h1 h2
  obtain ⟨h1d, h1l⟩ := h1
  obtain ⟨h2d, h2l⟩ := h2
  have hxz : x.file.data ≤ z.file.data := le_trans h1d h2d
  rintro (h' | ⟨hf, hl⟩)
  · exact absurd h' (not_lt.mpr hxz)
  · have hzd : z.file.data = x.file.data := congrArg String.data hf
    have hyxd : y.file.data = x.file.data := le_antisymm (hzd ▸ h2d) h1d
    have hyfx : y.file = x.file := String.ext hyxd
    have hzfy : z.file = y.file := by rw [hf, hyfx]
    have hl1 := h1l hyfx
    have hl2 := h2l hzfy
    omega

/-- Counterexample to claim C7: `overexported`'s report orders records
within a package by name (`strings.Compare` on `Name`), not by file and
line.  With `B` declared at line 1 and `A` at line 2 of the same file,
the printed order is `A` before `B`, which violates the claimed
file-then-line order. -/
theorem c7_counterexample_name_order :
    printResultGroups
        { exports :=
            [{ name := "B", kind := "func", position := ⟨"a.go", 1, 1⟩,
               pkgPath := "p" },
             { name := "A", kind := "func", position := ⟨"a.go", 2, 1⟩,
               pkgPath := "p" }] } =
      [("p",
        [{ name := "A", kind := "func", position := ⟨"a.go", 2, 1⟩,
           pkgPath := "p" },
         { name := "B", kind := "func", position := ⟨"a.go", 1, 1⟩,
           pkgPath := "p" }])] ∧
    ¬ ([({ name := "A", kind := "func", position := ⟨"a.go", 2, 1⟩,
           pkgPath := "p" } : Export),
        { name := "B", kind := "func", position := ⟨"a.go", 1, 1⟩,
          pkgPath := "p" }].Pairwise
        (fun a b => posLess b.position a.position = false)) := by
  constructor
  · decide
  · intro h
    have := List.pairwise_cons.mp h
    have h2 := this.1 _ (List.mem_singleton.mpr rfl)
    simp [posLess, goStrLt] at h2

/-- Claim C7, amended: both tools group records by package path in
ascending lexicographic order; within a package, `deadcode` orders
records by source-file path and then declaration line, while
`overexported`'s text report orders records by name. -/
theorem c7_amended_report_ordering (res : Result) (cfg : DConfig)
    (impl : Ty → DIface → Bool) (byPkgPath : List (String × List DFn))
    (filter : String → Bool) (generated : List String)
    (interfaceTypes : String → List DIface) :
    ((printResultGroups res).map (fun g => g.1)).Pairwise
        (fun a b => goStrLt b a = false) ∧
    (∀ g ∈ printResultGroups res,
      g.2.Pairwise (fun a b => goStrLt b.name a.name = false)) ∧
    ((buildJSONPackages cfg impl byPkgPath filter generated
        interfaceTypes).map (fun r => r.path)).Pairwise
        (fun a b => goStrLt b a = false) ∧
    (∀ r ∈ buildJSONPackages cfg impl byPkgPath filter generated interfaceTypes,
      r.funcs.Pairwise (fun a b => posLess b.position a.position = false)) := by
  refine ⟨?_, ?_, ?_, ?_⟩
  · unfold printResultGroups
    rw [List.map_map]
    have hsorted := pairwise_insSortBy goStrLt
      (fun a b c => goStrLt_negtrans a b c)
      (fun a b => goStrLt_asymm a b)
      (res.exports.map (fun e => e.pkgPath)).dedup
    exact (List.pairwise_map.mpr (hsorted.imp (fun h => h)))
  · intro g hg
    unfold printResultGroups at hg
    rcases List.mem_map.mp hg with ⟨pkg, _, hgeq⟩
    have hg2 : g.2 = insSortBy (fun a b => goStrLt a.name b.name)
        (res.exports.filter (fun e => e.pkgPath == pkg)) := by
      rw [← hgeq]
    rw [hg2]
    exact pairwise_insSortBy (fun (a b : Export) => goStrLt a.name b.name)
      (fun (a b c : Export) h1 h2 => goStrLt_negtrans a.name b.name c.name h1 h2)
      (fun (a b : Export) h => goStrLt_asymm a.name b.name h) _
  · unfold buildJSONPackages
    rw [List.map_filterMap, List.pairwise_filterMap]
    have hsorted := pairwise_insSortBy goStrLt
      (fun a b c => goStrLt_negtrans a b c)
      (fun a b => goStrLt_asymm a b)
      (byPkgPath.map (fun kv => kv.1))
    refine hsorted.imp_of_mem ?_
    intro a b _ _ hab x hx y hy
    rcases Option.map_eq_some'.mp hx with ⟨r, hr, hxr⟩
    rcases Option.map_eq_some'.mp hy with ⟨s, hs, hys⟩
    have hra := (buildJSONPackage1_inv _ _ _ _ _ _ _ _ hr).1
    have hsb := (buildJSONPackage1_inv _ _ _ _ _ _ _ _ hs).1
    rw [← hxr, ← hys, hra, hsb]
    exact hab
  · intro r hr
    rcases List.mem_filterMap.mp hr with ⟨pkgpath, _, hcond⟩
    obtain ⟨_, hfuncs⟩ := buildJSONPackage1_inv _ _ _ _ _ _ _ _ hcond
    rw [hfuncs]
    unfold buildJSONFuncs
    rw [List.pairwise_filterMap]
    have hsorted : (sortFnsByPos ((alookup byPkgPath pkgpath).getD [])).Pairwise
        (fun x y => posLess y.pos x.pos = false) :=
      pairwise_insSortBy (fun (x y : DFn) => posLess x.pos y.pos)
        (fun (a b c : DFn) h1 h2 => posLess_negtrans a.pos b.pos c.pos h1 h2)
        (fun (a b : DFn) h => posLess_asymm a.pos b.pos h) _
    refine hsorted.imp_of_mem ?_
    intro a b _ _ hab x hx y hy
    obtain ⟨_, hxa⟩ := buildJSONFunc1_inv _ _ _ _ _ _ hx
    obtain ⟨_, hyb⟩ := buildJSONFunc1_inv _ _ _ _ _ _ hy
    rw [hxa, hyb]
    exact hab

/-- Witness for `c7_amended_report_ordering`: the ordering facts at a
concrete two-export result. -/
theorem c7_amended_report_ordering_witness :
    (("p",
      [({ name := "A", kind := "func", position := ⟨"a.go", 2, 1⟩,
          pkgPath := "p" } : Export),
       { name := "B", kind := "func", position := ⟨"a.go", 1, 1⟩,
         pkgPath := "p" }]) : String × List Export).2.Pairwise
      (fun a b => goStrLt b.name a.name = false) :=
  (c7_amended_report_ordering
    { exports :=
        [{ name := "B", kind := "func", position := ⟨"a.go", 1, 1⟩,
           pkgPath := "p" },
         { name := "A", kind := "func", position := ⟨"a.go", 2, 1⟩,
           pkgPath := "p" }] }
    { generated := false, whyLive := "" } (fun _ _ => false) []
    (fun _ => true) [] (fun _ => [])).2.1
    ("p",
      [{ name := "A", kind := "func", position := ⟨"a.go", 2, 1⟩,
         pkgPath := "p" },
       { name := "B", kind := "func", position := ⟨"a.go", 1, 1⟩,
         pkgPath := "p" }])
    (by decide)

/-! ## The `-whylive` path search: call graph, BFS, and outcomes -/

/-- A call-graph edge (`callgraph.Edge`): caller and callee node indices,
whether the call site has a static callee, and the site position. -/
structure CGEdge where
  caller : Nat
  callee : Nat
  isStatic : Bool
  pos : Position
  deriving DecidableEq, Repr

/-- The outgoing edges of node `i`; out-of-range indices model functions
without a call-graph node. -/
def outEdges (g : List (List CGEdge)) (i : Nat) : List CGEdge := g.getD i []

/-- The per-pass edge admission of `pathSearch`:
`allowDynamic || isStaticCall(edge)`. -/
def allowEdge (ad : Bool) (e : CGEdge) : Bool := ad || e.isStatic

/-- Path validity: `p` is a chain of admitted edges of `g` from `src` to
`dst` (root-first). -/
def pathOKb (g : List (List CGEdge)) (ad : Bool) :
    Nat → List CGEdge → Nat → Bool
  | src, [], dst => src == dst
  | src, e :: rest, dst =>
    (e.caller == src) && decide (e ∈ outEdges g src) && allowEdge ad e &&
      pathOKb g ad e.callee rest dst

/-- Path reconstruction from the `seen` predecessor map, mirroring the
source loop: follow predecessor edges, appending, until the root (mapped
to `nil`), then reverse.  `fuel` bounds the chain length; `none` models a
broken chain, which the search never produces. -/
def rebuildPath (seen : List (Nat × Option CGEdge)) :
    Nat → Nat → List CGEdge → Option (List CGEdge)
  | _, 0, _ => none
  | node, fuel + 1, acc =>
    match alookup seen node with
    | none => none
    | some none => some acc.reverse
    | some (some e) => rebuildPath seen e.caller fuel (acc ++ [e])

/-- The edge scan of one dequeued node: admitted edges to unseen callees
enqueue the callee and record the predecessor edge. -/
def scanEdges (ad : Bool) (edges : List CGEdge)
    (qs : List Nat × List (Nat × Option CGEdge)) :
    List Nat × List (Nat × Option CGEdge) :=
  edges.foldl
    (fun qs e =>
      if allowEdge ad e then
        match alookup qs.2 e.callee with
        | some _ => qs
        | none => (qs.1 ++ [e.callee], upsert qs.2 e.callee (some e))
      else qs)
    qs

/-- The breadth-first loop of `pathSearch`'s inner `bfs`: dequeue, test
for a target (returning the reconstructed path), else scan the node's
edges; `fuel` dominates the loop and is chosen large enough that it never
runs out. -/
def bfsLoop (g : List (List CGEdge)) (ad : Bool) (targets : List Nat) :
    Nat → List Nat → List (Nat × Option CGEdge) →
    Option (List CGEdge) × List (Nat × Option CGEdge)
  | _, [], seen => (none, seen)
  | 0, _ :: _, seen => (none, seen)
  | fuel + 1, node :: queue, seen =>
    if targets.contains node then
      (rebuildPath seen node (seen.length + 1) [], seen)
    else
      let qs := scanEdges ad (outEdges g node) (queue, seen)
      bfsLoop g ad targets fuel qs.1 qs.2

/-- Fuel that always suffices: more than one iteration per possible
enqueue (the root plus one per edge of the graph). -/
def bfsFuel (g : List (List CGEdge)) : Nat :=
  (g.map (fun l => l.length)).sum + 2

/-- One `bfs(root)` call: seed the root into the shared `seen` map and
run the loop. -/
def bfsFrom (g : List (List CGEdge)) (ad : Bool) (targets : List Nat)
    (root : Nat) (seen : List (Nat × Option CGEdge)) :
    Option (List CGEdge) × List (Nat × Option CGEdge) :=
  bfsLoop g ad targets (bfsFuel g) [root] (upsert seen root none)

/-- One pass of `search`: iterate the (sorted) roots, skipping roots
without a call-graph node, sharing the `seen` map across roots, and
return the first root whose BFS finds a path. -/
def searchPass (g : List (List CGEdge)) (ad : Bool) (targets : List Nat) :
    List Nat → List (Nat × Option CGEdge) → Option (Nat × List CGEdge)
  | [], _ => none
  | r :: rest, seen =>
    if g.length ≤ r then searchPass g ad targets rest seen
    else
      match bfsFrom g ad targets r seen with
      | (some path, _) => some (r, path)
      | (none, seen') => searchPass g ad targets rest seen'

/-- Model of `importsTesting`: the root's package DIRECTLY imports the
`testing` package (`types.Package.Imports` lists direct imports). -/
def importsTestingB (fns : List DFn) (i : Nat) : Bool :=
  match (fns.getD i default).pkg with
  | some p => p.imports.contains "testing"
  | none => false

/-- Whether a root function is an initialiser. -/
def isInitRootB (fns : List DFn) (i : Nat) : Bool :=
  (fns.getD i default).name == "init"

/-- The root comparator of `pathSearch`: non-test packages before test
packages, mains before inits, otherwise ties. -/
def rootLess (fns : List DFn) (x y : Nat) : Bool :=
  let xtest := importsTestingB fns x
  let ytest := importsTestingB fns y
  if xtest != ytest then !xtest
  else
    let xinit := isInitRootB fns x
    let yinit := isInitRootB fns y
    if xinit != yinit then !xinit
    else false

/-- The rank the root comparator realises. -/
def rootRank (fns : List DFn) (i : Nat) : Nat :=
  2 * (cond (importsTestingB fns i) 1 0) + cond (isInitRootB fns i) 1 0

/-- `pathSearch` generic in the root comparator: sort the roots, then a
static-only pass, then, only if it found nothing, a pass admitting
dynamic edges. -/
def pathSearchWith (less : Nat → Nat → Bool) (g : List (List CGEdge))
    (roots : List Nat) (targets : List Nat) : Option (Nat × List CGEdge) :=
  let sorted := insSortBy less roots
  match searchPass g false targets sorted [] with
  | some rp => some rp
  | none => searchPass g true targets sorted []

/-- Model of `pathSearch`. -/
def pathSearch (fns : List DFn) (g : List (List CGEdge)) (roots : List Nat)
    (targets : List Nat) : Option (Nat × List CGEdge) :=
  pathSearchWith (rootLess fns) g roots targets

/-- Modelled from the spec: "roots whose package does not
transitively import the testing package come before those that do"
(section 4.B).
Transitive import of `testing` over a package table, with fuel bounding
the import-chain depth. -/
def importsTestingTrans (pkgs : List DPkgRef) : Nat → String → Bool
  | 0, _ => false
  | fuel + 1, path =>
    match pkgs.find? (fun p => p.path == path) with
    | none => false
    | some p =>
      p.imports.contains "testing" ||
        p.imports.any (fun q => importsTestingTrans pkgs fuel q)

/-- Modelled from the spec: the root comparator with the transitive
testing-import test of section 4.B in place of the direct one. -/
def rootLessSpec (pkgs : List DPkgRef) (fns : List DFn) (x y : Nat) : Bool :=
  let xtest := match (fns.getD x default).pkg with
               | some p => importsTestingTrans pkgs pkgs.length p.path
               | none => false
  let ytest := match (fns.getD y default).pkg with
               | some p => importsTestingTrans pkgs pkgs.length p.path
               | none => false
  if xtest != ytest then !xtest
  else
    let xinit := isInitRootB fns x
    let yinit := isInitRootB fns y
    if xinit != yinit then !xinit
    else false

/-- The `-whylive` outcome taxonomy. -/
inductive WhyLiveResult where
  | notFound
  | isDead
  | reflectiveOnly
  | isRoot (rootIdx : Nat)
  | pathFound (rootIdx : Nat) (path : List CGEdge)
  deriving DecidableEq, Repr

/-- Model of `handleWhyLive` (after `DeleteSyntheticNodes`; `g` is the
call graph with synthetic wrappers already flattened): match source
functions by qualified pretty name, drop unreachable matches by position,
then search; `nil` search result is ReflectiveOnly, an empty path IsRoot,
else the path. -/
def handleWhyLive (fns : List DFn) (whyLive : String)
    (sourceFuncs : List Nat) (reachablePosn : List Position)
    (roots : List Nat) (g : List (List CGEdge)) : WhyLiveResult :=
  let targets := sourceFuncs.filter
    (fun i => prettyName (fns.getD i default) true == whyLive)
  if targets.isEmpty then .notFound
  else
    let targetsReach := targets.filter
      (fun i => reachablePosn.contains (fns.getD i default).pos)
    if targetsReach.isEmpty then .isDead
    else
      match pathSearch fns g roots targetsReach with
      | none => .reflectiveOnly
      | some (r, path) => if path.isEmpty then .isRoot r else .pathFound r path

/-! ### Support lemmas for the BFS proof -/

theorem alookup_upsert_self {α β : Type} [DecidableEq α]
    (m : List (α × β)) (k : α) (v : β) : alookup (upsert m k v) k = some v := by
  induction m with
  | nil => simp [upsert, alookup]
  | cons kv rest ih =>
    simp only [upsert]
    by_cases h : kv.1 = k
    · rw [if_pos h]
      simp [alookup]
    · rw [if_neg h]
      simp only [alookup, if_neg h]
      exact ih

theorem alookup_upsert_ne {α β : Type} [DecidableEq α]
    (m : List (α × β)) (k k' : α) (v : β) (h : k' ≠ k) :
    alookup (upsert m k v) k' = alookup m k' := by
  induction m with
  | nil =>
    simp only [upsert, alookup]
    rw [if_neg (fun hh => h hh.symm)]
  | cons kv rest ih =>
    simp only [upsert]
    by_cases hk : kv.1 = k
    · rw [if_pos hk]
      simp only [alookup]
      rw [if_neg (fun hh => h hh.symm),
        if_neg (fun hh : kv.1 = k' => h ((hk.symm.trans hh).symm))]
    · rw [if_neg hk]
      simp only [alookup]
      by_cases hk' : kv.1 = k'
      · rw [if_pos hk', if_pos hk']
      · rw [if_neg hk', if_neg hk']
        exact ih

theorem length_le_upsert {α β : Type} [DecidableEq α]
    (m : List (α × β)) (k : α) (v : β) : m.length ≤ (upsert m k v).length := by
  induction m with
  | nil => simp [upsert]
  | cons kv rest ih =>
    simp only [upsert]
    by_cases h : kv.1 = k
    · rw [if_pos h]; simp
    · rw [if_neg h]
      simpa using ih

theorem rebuildPath_mono (seen : List (Nat × Option CGEdge)) :
    ∀ (f f' : Nat) (node : Nat) (acc p : List CGEdge), f ≤ f' →
    rebuildPath seen node f acc = some p → rebuildPath seen node f' acc = some p := by
  intro f
  induction f with
  | zero => intro f' node acc p _ h; simp [rebuildPath] at h
  | succ f ih =>
    intro f' node acc p hle h
    cases f' with
    | zero => omega
    | succ f'' =>
      simp only [rebuildPath] at h ⊢
      cases hl : alookup seen node with
      | none => rw [hl] at h; simp at h
      | some entry =>
        rw [hl] at h
        cases entry with
        | none => exact h
        | some e => exact ih f'' e.caller (acc ++ [e]) p (by omega) h

theorem rebuildPath_acc (seen : List (Nat × Option CGEdge)) :
    ∀ (f : Nat) (node : Nat) (acc : List CGEdge),
    rebuildPath seen node f acc =
      (rebuildPath seen node f []).map (fun p => p ++ acc.reverse) := by
  intro f
  induction f with
  | zero => intro node acc; simp [rebuildPath]
  | succ f ih =>
    intro node acc
    simp only [rebuildPath]
    cases hl : alookup seen node with
    | none => simp
    | some entry =>
      cases entry with
      | none => simp
      | some e =>
        dsimp only
        rw [ih e.caller (acc ++ [e]), ih e.caller ([] ++ [e])]
        cases rebuildPath seen e.caller f [] with
        | none => simp
        | some q => simp

theorem rebuildPath_preserve (S S' : List (Nat × Option CGEdge))
    (hpre : ∀ j, (alookup S j).isSome = true → alookup S' j = alookup S j) :
    ∀ (f : Nat) (node : Nat) (acc p : List CGEdge),
    rebuildPath S node f acc = some p → rebuildPath S' node f acc = some p := by
  intro f
  induction f with
  | zero => intro node acc p h; simp [rebuildPath] at h
  | succ f ih =>
    intro node acc p h
    simp only [rebuildPath] at h ⊢
    cases hl : alookup S node with
    | none => rw [hl] at h; simp at h
    | some entry =>
      rw [hl] at h
      rw [hpre node (by simp [hl])]
      rw [hl]
      cases entry with
      | none => exact h
      | some e => exact ih e.caller (acc ++ [e]) p h

theorem pathOKb_snoc (g : List (List CGEdge)) (ad : Bool) :
    ∀ (p : List CGEdge) (src : Nat) (e : CGEdge) (dst : Nat),
    pathOKb g ad src (p ++ [e]) dst = true ↔
      (pathOKb g ad src p e.caller = true ∧ e ∈ outEdges g e.caller ∧
        allowEdge ad e = true ∧ e.callee = dst) := by
  intro p
  induction p with
  | nil =>
    intro src e dst
    simp only [List.nil_append, pathOKb]
    constructor
    · intro h
      simp only [Bool.and_eq_true, beq_iff_eq, decide_eq_true_eq] at h
      obtain ⟨⟨⟨hc, hm⟩, ha⟩, hd⟩ := h
      refine ⟨by simp [pathOKb, hc], hc ▸ hm, ha, by simpa using hd⟩
    · rintro ⟨hsrc, hm, ha, hd⟩
      simp only [pathOKb, beq_iff_eq] at hsrc
      simp only [Bool.and_eq_true, beq_iff_eq, decide_eq_true_eq]
      exact ⟨⟨⟨hsrc.symm, hsrc ▸ hm⟩, ha⟩, by simp [pathOKb, hd]⟩
  | cons e' rest ih =>
    intro src e dst
    simp only [List.cons_append, pathOKb, Bool.and_eq_true]
    constructor
    · rintro ⟨⟨⟨hc, hm⟩, ha⟩, h⟩
      rcases (ih e'.callee e dst).mp h with ⟨h1, h2, h3, h4⟩
      exact ⟨by simp [pathOKb, hc, hm, ha, h1], h2, h3, h4⟩
    · rintro ⟨⟨⟨⟨hbeq, hdec⟩, hall⟩, hpk⟩, h2, h3, h4⟩
      exact ⟨⟨⟨hbeq, hdec⟩, hall⟩, (ih e'.callee e dst).mpr ⟨hpk, h2, h3, h4⟩⟩

theorem pathOKb_mono_ad (g : List (List CGEdge)) :
    ∀ (p : List CGEdge) (src dst : Nat),
    pathOKb g false src p dst = true → pathOKb g true src p dst = true := by
  intro p
  induction p with
  | nil => intro src dst h; exact h
  | cons e rest ih =>
    intro src dst h
    simp only [pathOKb, Bool.and_eq_true] at h ⊢
    obtain ⟨⟨⟨hc, hm⟩, _⟩, h'⟩ := h
    exact ⟨⟨⟨hc, hm⟩, by simp [allowEdge]⟩, ih e.callee dst h'⟩

/-- Every callee index appearing in the graph, deduplicated. -/
def calleeUniv (g : List (List CGEdge)) : List Nat :=
  (g.flatten.map (fun e => e.callee)).dedup

/-- The number of universe nodes recorded in `seen`. -/
def seenCount (g : List (List CGEdge)) (S : List (Nat × Option CGEdge)) : Nat :=
  ((calleeUniv g).filter (fun i => (alookup S i).isSome)).length

theorem seenCount_le (g : List (List CGEdge)) (S : List (Nat × Option CGEdge)) :
    seenCount g S ≤ (calleeUniv g).length :=
  List.length_filter_le _ _

theorem filter_congr_weak {α : Type} (p q : α → Bool) (l : List α)
    (h : ∀ a ∈ l, p a = q a) : l.filter p = l.filter q :=
  List.filter_congr h

theorem length_filter_update (L : List Nat) (hnd : L.Nodup) (c : Nat)
    (hc : c ∈ L) (p p' : Nat → Bool) (hpc : p c = false) (hp'c : p' c = true)
    (hagree : ∀ i, i ≠ c → p' i = p i) :
    (L.filter p').length = (L.filter p).length + 1 := by
  induction L with
  | nil => exact absurd hc (List.not_mem_nil c)
  | cons a l ih =>
    rcases List.nodup_cons.mp hnd with ⟨hna, hnl⟩
    by_cases hac : a = c
    · subst hac
      have hlc : a ∉ l := hna
      have hfl : l.filter p' = l.filter p :=
        List.filter_congr (fun i hi => hagree i (fun hic => hlc (hic ▸ hi)))
      simp [List.filter_cons, hp'c, hpc, hfl]
    · have hcl : c ∈ l := by
        rcases List.mem_cons.mp hc with h | h
        · exact absurd h.symm hac
        · exact h
      have hpa : p' a = p a := hagree a hac
      cases hpab : p a with
      | true => simp [List.filter_cons, hpa, hpab, ih hnl hcl]
      | false => simp [List.filter_cons, hpa, hpab, ih hnl hcl]

theorem seenCount_upsert_fresh (g : List (List CGEdge))
    (S : List (Nat × Option CGEdge)) (c : Nat) (v : Option CGEdge)
    (hc : c ∈ calleeUniv g) (hfresh : alookup S c = none) :
    seenCount g (upsert S c v) = seenCount g S + 1 := by
  unfold seenCount
  refine length_filter_update _ (List.nodup_dedup _) c hc _ _ ?_ ?_ ?_
  · simp [hfresh]
  · simp [alookup_upsert_self]
  · intro i hi
    rw [alookup_upsert_ne _ _ _ _ hi]

theorem length_filter_le_of_imp {α : Type} (l : List α) (p p' : α → Bool)
    (h : ∀ a ∈ l, p a = true → p' a = true) :
    (l.filter p).length ≤ (l.filter p').length := by
  induction l with
  | nil => simp
  | cons a l ih =>
    have ih' := ih (fun x hx hpx => h x (List.mem_cons_of_mem _ hx) hpx)
    cases hpa : p a with
    | true =>
      have hp'a := h a (List.mem_cons_self _ _) hpa
      simp [List.filter_cons, hpa, hp'a]
      omega
    | false =>
      cases hp'a : p' a with
      | true =>
        simp [List.filter_cons, hpa, hp'a]
        omega
      | false =>
        simp [List.filter_cons, hpa, hp'a]
        omega

theorem seenCount_mono_upsert (g : List (List CGEdge))
    (S : List (Nat × Option CGEdge)) (c : Nat) (v : Option CGEdge) :
    seenCount g S ≤ seenCount g (upsert S c v) := by
  unfold seenCount
  apply length_filter_le_of_imp
  intro i _ hi
  by_cases hic : i = c
  · rw [hic, alookup_upsert_self]; rfl
  · rw [alookup_upsert_ne _ _ _ _ hic]; exact hi

theorem length_upsert_fresh {α β : Type} [DecidableEq α]
    (m : List (α × β)) (k : α) (v : β) (h : alookup m k = none) :
    (upsert m k v).length = m.length + 1 := by
  induction m with
  | nil => simp [upsert]
  | cons kv rest ih =>
    simp only [alookup] at h
    by_cases hk : kv.1 = k
    · rw [if_pos hk] at h
      simp at h
    · rw [if_neg hk] at h
      simp only [upsert, if_neg hk, List.length_cons, ih h]

theorem mem_calleeUniv_of_out (g : List (List CGEdge)) (i : Nat) (e : CGEdge)
    (he : e ∈ outEdges g i) : e.callee ∈ calleeUniv g := by
  unfold outEdges at he
  by_cases hi : i < g.length
  · have hgl : g.getD i [] = g[i] := List.getD_eq_getElem g [] hi
    rw [hgl] at he
    unfold calleeUniv
    apply List.mem_dedup.mpr
    apply List.mem_map.mpr
    refine ⟨e, ?_, rfl⟩
    exact List.mem_flatten.mpr ⟨g[i], List.getElem_mem hi, he⟩
  · rw [List.getD_eq_default] at he
    · exact absurd he (List.not_mem_nil e)
    · omega

theorem length_filter_lt {α : Type} (l : List α) (p : α → Bool) (c : α)
    (hc : c ∈ l) (hpc : p c = false) : (l.filter p).length < l.length := by
  induction l with
  | nil => exact absurd hc (List.not_mem_nil c)
  | cons a l ih =>
    rcases List.mem_cons.mp hc with h | h
    · have hpa : p a = false := h ▸ hpc
      simp only [List.filter_cons, hpa]
      have := List.length_filter_le p l
      simp
      omega
    · cases hpa : p a with
      | true =>
        simp only [List.filter_cons, hpa, if_pos rfl]
        have := ih h
        simp
        omega
      | false =>
        simp only [List.filter_cons, hpa]
        have := ih h
        simp
        omega

theorem scanEdges_spec (g : List (List CGEdge)) (ad : Bool) :
    ∀ (edges : List CGEdge) (Q : List Nat) (S : List (Nat × Option CGEdge)),
    (∀ e ∈ edges, e.callee ∈ calleeUniv g) →
    ∃ added : List Nat,
      (scanEdges ad edges (Q, S)).1 = Q ++ added ∧
      (∀ j, (alookup S j).isSome = true →
        alookup (scanEdges ad edges (Q, S)).2 j = alookup S j) ∧
      (∀ j, (alookup (scanEdges ad edges (Q, S)).2 j).isSome = true ↔
        ((alookup S j).isSome = true ∨ j ∈ added)) ∧
      (∀ c ∈ added, (alookup S c).isSome = false ∧
        ∃ e ∈ edges, allowEdge ad e = true ∧ e.callee = c ∧
          alookup (scanEdges ad edges (Q, S)).2 c = some (some e)) ∧
      (∀ e ∈ edges, allowEdge ad e = true →
        (alookup (scanEdges ad edges (Q, S)).2 e.callee).isSome = true) ∧
      S.length + added.length ≤ (scanEdges ad edges (Q, S)).2.length ∧
      (scanEdges ad edges (Q, S)).1.length +
          ((calleeUniv g).length - seenCount g (scanEdges ad edges (Q, S)).2) ≤
        Q.length + ((calleeUniv g).length - seenCount g S) := by
  intro edges
  induction edges with
  | nil =>
    intro Q S _
    exact ⟨[], by simp [scanEdges], by simp [scanEdges], by simp [scanEdges],
      by simp, by simp, by simp [scanEdges], by simp [scanEdges]⟩
  | cons e edges ih =>
    intro Q S hcal
    have hscan : scanEdges ad (e :: edges) (Q, S) =
        scanEdges ad edges
          (if allowEdge ad e then
            match alookup S e.callee with
            | some _ => (Q, S)
            | none => (Q ++ [e.callee], upsert S e.callee (some e))
          else (Q, S)) := by
      simp [scanEdges]
    by_cases hallow : allowEdge ad e = true
    · cases hlk : alookup S e.callee with
      | some entry =>
        rw [hallow] at hscan
        rw [hlk] at hscan
        simp at hscan
        rcases ih Q S (fun e' he' => hcal e' (List.mem_cons_of_mem _ he')) with
          ⟨added, h1, h2, h3, h4, h5, h6, h7⟩
        rw [hscan]
        refine ⟨added, h1, h2, h3, ?_, ?_, h6, h7⟩
        · intro c hcadd
          rcases h4 c hcadd with ⟨hf, e', he', ha', hc', hl'⟩
          exact ⟨hf, e', List.mem_cons_of_mem _ he', ha', hc', hl'⟩
        · intro e' he' ha'
          rcases List.mem_cons.mp he' with h | h
          · rw [h]
            rw [h2 e.callee (by simp [hlk])]
            simp [hlk]
          · exact h5 e' h ha'
      | none =>
        rw [hallow] at hscan
        rw [hlk] at hscan
        simp at hscan
        have hcu : e.callee ∈ calleeUniv g := hcal e (List.mem_cons_self _ _)
        rcases ih (Q ++ [e.callee]) (upsert S e.callee (some e))
          (fun e' he' => hcal e' (List.mem_cons_of_mem _ he')) with
          ⟨added, h1, h2, h3, h4, h5, h6, h7⟩
        rw [hscan]
        have hupl : alookup (upsert S e.callee (some e)) e.callee = some (some e) :=
          alookup_upsert_self _ _ _
        refine ⟨e.callee :: added, ?_, ?_, ?_, ?_, ?_, ?_, ?_⟩
        · rw [h1]
          simp
        · intro j hj
          have hjne : j ≠ e.callee := by
            intro hh
            rw [hh, hlk] at hj
            simp at hj
          rw [h2 j (by rw [alookup_upsert_ne _ _ _ _ hjne]; exact hj)]
          rw [alookup_upsert_ne _ _ _ _ hjne]
        · intro j
          rw [h3 j]
          constructor
          · rintro (hs | hadd)
            · by_cases hjc : j = e.callee
              · exact Or.inr (by simp [hjc])
              · rw [alookup_upsert_ne _ _ _ _ hjc] at hs
                exact Or.inl hs
            · exact Or.inr (List.mem_cons_of_mem _ hadd)
          · rintro (hs | hadd)
            · exact Or.inl (by
                by_cases hjc : j = e.callee
                · rw [hjc, hupl]; rfl
                · rw [alookup_upsert_ne _ _ _ _ hjc]; exact hs)
            · rcases List.mem_cons.mp hadd with h | h
              · exact Or.inl (by rw [h, hupl]; rfl)
              · exact Or.inr h
        · intro c hcadd
          rcases List.mem_cons.mp hcadd with h | h
          · subst h
            refine ⟨by simp [hlk], e, List.mem_cons_self _ _, hallow, rfl, ?_⟩
            rw [h2 e.callee (by rw [hupl]; rfl), hupl]
          · rcases h4 c h with ⟨hf, e', he', ha', hc', hl'⟩
            refine ⟨?_, e', List.mem_cons_of_mem _ he', ha', hc', hl'⟩
            by_cases hjc : c = e.callee
            · rw [hjc, hupl] at hf
              simp at hf
            · rw [alookup_upsert_ne _ _ _ _ hjc] at hf
              exact hf
        · intro e' he' ha'
          rcases List.mem_cons.mp he' with h | h
          · rw [h]
            rw [h2 e.callee (by rw [hupl]; rfl), hupl]
            rfl
          · exact h5 e' h ha'
        · have hul : (upsert S e.callee (some e)).length = S.length + 1 :=
            length_upsert_fresh S e.callee (some e) hlk
          simp only [List.length_cons]
          omega
        · have hsc : seenCount g (upsert S e.callee (some e)) =
              seenCount g S + 1 := seenCount_upsert_fresh g S e.callee (some e) hcu hlk
          have hlt : seenCount g S < (calleeUniv g).length := by
            unfold seenCount
            exact length_filter_lt _ _ e.callee hcu (by simp [hlk])
          have h7' := h7
          rw [hsc] at h7'
          simp only [List.length_append, List.length_cons, List.length_nil] at h7' ⊢
          omega
    · have hallow' : allowEdge ad e = false := Bool.of_not_eq_true hallow
      rw [hallow'] at hscan
      simp only [Bool.false_eq_true, if_false] at hscan
      rcases ih Q S (fun e' he' => hcal e' (List.mem_cons_of_mem _ he')) with
        ⟨added, h1, h2, h3, h4, h5, h6, h7⟩
      rw [hscan]
      refine ⟨added, h1, h2, h3, ?_, ?_, h6, h7⟩
      · intro c hcadd
        rcases h4 c hcadd with ⟨hf, e', he', ha', hc', hl'⟩
        exact ⟨hf, e', List.mem_cons_of_mem _ he', ha', hc', hl'⟩
      · intro e' he' ha'
        rcases List.mem_cons.mp he' with h | h
        · rw [h] at ha'
          exact absurd ha' (by simp [hallow'])
        · exact h5 e' h ha'

/-- A seen-map that is closed under admitted edges and contains no
target: the state left behind by an exhausted BFS. -/
def ClosedFree (g : List (List CGEdge)) (ad : Bool) (targets : List Nat)
    (S : List (Nat × Option CGEdge)) : Prop :=
  ∀ i, (alookup S i).isSome = true →
    targets.contains i = false ∧
    ∀ e ∈ outEdges g i, allowEdge ad e = true →
      (alookup S e.callee).isSome = true

/-- A node first seen by the current BFS run (as opposed to the frozen
pre-seed `S₀`); the root counts as newly seen because its entry is
overwritten at the start of the run. -/
def NewSeen (root : Nat) (S₀ S : List (Nat × Option CGEdge)) (i : Nat) : Prop :=
  (alookup S i).isSome = true ∧
    (i = root ∨ (alookup S₀ i).isSome = false)

/-- The BFS loop invariantly maintains exact distances, reports a
shortest path to a target on success, and leaves a closed, target-free
seen map behind on failure. -/
theorem bfsLoop_master (g : List (List CGEdge)) (ad : Bool) (targets : List Nat)
    (root : Nat) (S₀ : List (Nat × Option CGEdge))
    (hWF : ∀ i, ∀ e ∈ outEdges g i, e.caller = i)
    (hS₀ : ClosedFree g ad targets S₀) :
    ∀ (fuel : Nat) (Q : List Nat) (S : List (Nat × Option CGEdge)) (dep : Nat → Nat),
    Q.length + ((calleeUniv g).length - seenCount g S) < fuel →
    (alookup S root).isSome = true →
    (∀ i, (alookup S₀ i).isSome = true → (alookup S i).isSome = true) →
    (∀ i ∈ Q, NewSeen root S₀ S i) →
    (∀ i, NewSeen root S₀ S i → ∃ p, rebuildPath S i (S.length + 1) [] = some p ∧
      pathOKb g ad root p i = true ∧ p.length = dep i) →
    Q.Pairwise (fun i j => dep i ≤ dep j) →
    (∀ i ∈ Q, ∀ j ∈ Q, dep j ≤ dep i + 1) →
    (∀ i, NewSeen root S₀ S i → i ∉ Q →
      targets.contains i = false ∧
      ∀ e ∈ outEdges g i, allowEdge ad e = true →
        (alookup S e.callee).isSome = true) →
    (∀ v p, pathOKb g ad root p v = true →
      (∀ q, Q.head? = some q → p.length < dep q) →
      (alookup S v).isSome = true) →
    (∀ i, NewSeen root S₀ S i → ∀ p, pathOKb g ad root p i = true →
      dep i ≤ p.length) →
    ((∀ p S', bfsLoop g ad targets fuel Q S = (some p, S') →
        (∃ t, targets.contains t = true ∧ pathOKb g ad root p t = true) ∧
        (∀ t q, targets.contains t = true → pathOKb g ad root q t = true →
          p.length ≤ q.length)) ∧
     (∀ S', bfsLoop g ad targets fuel Q S = (none, S') →
        ClosedFree g ad targets S' ∧
        (∀ i, (alookup S₀ i).isSome = true → (alookup S' i).isSome = true) ∧
        (∀ t p, targets.contains t = true → pathOKb g ad root p t = true →
          False))) := by
  intro fuel
  induction fuel with
  | zero =>
    intro Q S dep hfuel _ _ _ _ _ _ _ _ _
    exact absurd hfuel (by omega)
  | succ fuel ih =>
    intro Q S dep hfuel hroot hlift hQnew hchain hQpair hQspread hclosed
      hfrontier hdepmin
    cases Q with
    | nil =>
      constructor
      · intro p S' hres
        simp [bfsLoop] at hres
      · intro S' hres
        simp only [bfsLoop, Prod.mk.injEq] at hres
        obtain ⟨_, rfl⟩ := hres
        have hseenall : ∀ v p, pathOKb g ad root p v = true →
            (alookup S v).isSome = true := by
          intro v p hp
          exact hfrontier v p hp (fun q hq => by simp at hq)
        refine ⟨?_, hlift, ?_⟩
        · intro i hi
          by_cases hold : (alookup S₀ i).isSome = true
          · rcases hS₀ i hold with ⟨ht, hsucc⟩
            exact ⟨ht, fun e he ha => hlift _ (hsucc e he ha)⟩
          · exact hclosed i ⟨hi, Or.inr (Bool.of_not_eq_true hold)⟩
              (List.not_mem_nil i)
        · intro t p ht hp
          have hts := hseenall t p hp
          by_cases hold : (alookup S₀ t).isSome = true
          · rcases hS₀ t hold with ⟨htf, _⟩
            rw [ht] at htf
            exact absurd htf (by simp)
          · rcases hclosed t ⟨hts, Or.inr (Bool.of_not_eq_true hold)⟩
              (List.not_mem_nil t) with ⟨htf, _⟩
            rw [ht] at htf
            exact absurd htf (by simp)
    | cons node rest =>
      simp only [bfsLoop]
      by_cases htarget : targets.contains node = true
      · rw [if_pos htarget]
        have hnew : NewSeen root S₀ S node :=
          hQnew node (List.mem_cons_self _ _)
        obtain ⟨pn, hrb, hpath, hlen⟩ := hchain node hnew
        constructor
        · intro p S' hres
          rw [hrb] at hres
          obtain ⟨hps, _⟩ := Prod.mk.injEq .. ▸ hres
          have hpp : pn = p := Option.some.inj (by rw [hps])
          subst hpp
          refine ⟨⟨node, htarget, hpath⟩, ?_⟩
          intro t q ht hq
          by_contra hlt
          push_neg at hlt
          have hqlt : q.length < dep node := by omega
          have hts : (alookup S t).isSome = true := by
            apply hfrontier t q hq
            intro q0 hq0
            have : q0 = node := by have h := hq0; simp at h; omega
            rw [this]
            exact hqlt
          by_cases hold : (alookup S₀ t).isSome = true
          · rcases hS₀ t hold with ⟨htf, _⟩
            rw [ht] at htf
            exact absurd htf (by simp)
          · have htnew : NewSeen root S₀ S t :=
              ⟨hts, Or.inr (Bool.of_not_eq_true hold)⟩
            by_cases htQ : t ∈ node :: rest
            · have hdt : dep t ≤ q.length := hdepmin t htnew q hq
              rcases List.mem_cons.mp htQ with h | h
              · rw [h] at hdt
                omega
              · have := (List.pairwise_cons.mp hQpair).1 t h
                omega
            · rcases hclosed t htnew htQ with ⟨htf, _⟩
              rw [ht] at htf
              exact absurd htf (by simp)
        · intro S' hres
          rw [hrb] at hres
          obtain ⟨hps, _⟩ := Prod.mk.injEq .. ▸ hres
          exact absurd hps (by simp)
      · rw [if_neg htarget]
        have htar' : targets.contains node = false := Bool.of_not_eq_true htarget
        obtain ⟨added, s1, s2, s3, s4, s5, s6, s7⟩ :=
          scanEdges_spec g ad (outEdges g node) rest S
            (fun e he => mem_calleeUniv_of_out g node e he)
        have hliftS' : ∀ i, (alookup S i).isSome = true →
            (alookup (scanEdges ad (outEdges g node) (rest, S)).2 i).isSome = true :=
          fun i h => (s3 i).mpr (Or.inl h)
        have haddQ' : ∀ c ∈ added,
            c ∈ (scanEdges ad (outEdges g node) (rest, S)).1 := by
          intro c hc
          rw [s1]
          exact List.mem_append_right _ hc
        have hrestQ' : ∀ c ∈ rest,
            c ∈ (scanEdges ad (outEdges g node) (rest, S)).1 := by
          intro c hc
          rw [s1]
          exact List.mem_append_left _ hc
        have haddfresh : ∀ c ∈ added, (alookup S₀ c).isSome = false := by
          intro c hc
          rcases s4 c hc with ⟨hf, _⟩
          cases hcc : (alookup S₀ c).isSome with
          | false => rfl
          | true => rw [hlift c hcc] at hf; simp at hf
        -- the extended depth assignment
        have hdepQnew : ∀ i ∈ (scanEdges ad (outEdges g node) (rest, S)).1,
            NewSeen root S₀ (scanEdges ad (outEdges g node) (rest, S)).2 i := by
          intro i hi
          rw [s1] at hi
          rcases List.mem_append.mp hi with h | h
          · rcases hQnew i (List.mem_cons_of_mem _ h) with ⟨hs, hor⟩
            exact ⟨hliftS' i hs, hor⟩
          · exact ⟨(s3 i).mpr (Or.inr h), Or.inr (haddfresh i h)⟩
        have hchain' : ∀ i,
            NewSeen root S₀ (scanEdges ad (outEdges g node) (rest, S)).2 i →
            ∃ p, rebuildPath (scanEdges ad (outEdges g node) (rest, S)).2 i
              ((scanEdges ad (outEdges g node) (rest, S)).2.length + 1) [] = some p ∧
              pathOKb g ad root p i = true ∧
              p.length = (if (alookup S i).isSome = true then dep i
                else dep node + 1) := by
          intro i hi
          by_cases hiS : (alookup S i).isSome = true
          · obtain ⟨p, hrb, hpath, hlen⟩ := hchain i ⟨hiS, hi.2⟩
            have hrb' := rebuildPath_preserve S _ s2 _ i [] p hrb
            have hrb'' : rebuildPath (scanEdges ad (outEdges g node) (rest, S)).2 i
                ((scanEdges ad (outEdges g node) (rest, S)).2.length + 1) []
                = some p :=
              rebuildPath_mono _ (S.length + 1) _ i [] p
                (by have := s6; omega) hrb'
            exact ⟨p, hrb'', hpath, by rw [if_pos hiS]; exact hlen⟩
          · have hiadd : i ∈ added := by
              rcases (s3 i).mp hi.1 with h | h
              · exact absurd h hiS
              · exact h
            rcases s4 i hiadd with ⟨hf, e, heE, hallowE, hcalleeE, hlk⟩
            have hcaller : e.caller = node := hWF node e heE
            obtain ⟨pn, hrbn, hpn, hlenn⟩ := hchain node
              (hQnew node (List.mem_cons_self _ _))
            have hrbn' := rebuildPath_preserve S _ s2 _ node [] pn hrbn
            have haddpos : 0 < added.length :=
              List.length_pos.mpr (List.ne_nil_of_mem hiadd)
            have hrbn'' : rebuildPath
                (scanEdges ad (outEdges g node) (rest, S)).2 node
                (scanEdges ad (outEdges g node) (rest, S)).2.length [] = some pn :=
              rebuildPath_mono _ _ _ node [] pn (by omega) hrbn'
            refine ⟨pn ++ [e], ?_, ?_, ?_⟩
            · simp only [rebuildPath]
              rw [hlk]
              dsimp only
              rw [hcaller]
              rw [rebuildPath_acc]
              rw [hrbn'']
              simp
            · rw [← hcalleeE]
              apply (pathOKb_snoc g ad pn root e e.callee).mpr
              exact ⟨by rw [hcaller]; exact hpn, by rw [hcaller]; exact heE,
                hallowE, rfl⟩
            · rw [if_neg hiS]
              simp [hlenn]
        have hdep'rest : ∀ i ∈ rest,
            (if (alookup S i).isSome = true then dep i else dep node + 1) =
              dep i := by
          intro i hi
          rw [if_pos (hQnew i (List.mem_cons_of_mem _ hi)).1]
        have hdep'add : ∀ c ∈ added,
            (if (alookup S c).isSome = true then dep c else dep node + 1) =
              dep node + 1 := by
          intro c hc
          rcases s4 c hc with ⟨hf, _⟩
          rw [if_neg (by simp [hf])]
        have hheadle : ∀ j ∈ rest, dep node ≤ dep j :=
          (List.pairwise_cons.mp hQpair).1
        have hQpair' : (scanEdges ad (outEdges g node) (rest, S)).1.Pairwise
            (fun i j => (if (alookup S i).isSome = true then dep i
                else dep node + 1) ≤
              (if (alookup S j).isSome = true then dep j
                else dep node + 1)) := by
          rw [s1]
          apply List.pairwise_append.mpr
          refine ⟨?_, ?_, ?_⟩
          · have := (List.pairwise_cons.mp hQpair).2
            apply List.Pairwise.imp_of_mem ?_ this
            intro a b ha hb hab
            rw [hdep'rest a ha, hdep'rest b hb]
            exact hab
          · apply List.pairwise_of_forall_mem_list
            intro a ha b hb
            rw [hdep'add a ha, hdep'add b hb]
          · intro a ha b hb
            rw [hdep'rest a ha, hdep'add b hb]
            have := hQspread node (List.mem_cons_self _ _) a
              (List.mem_cons_of_mem _ ha)
            omega
        have hQspread' : ∀ i ∈ (scanEdges ad (outEdges g node) (rest, S)).1,
            ∀ j ∈ (scanEdges ad (outEdges g node) (rest, S)).1,
            (if (alookup S j).isSome = true then dep j else dep node + 1) ≤
              (if (alookup S i).isSome = true then dep i else dep node + 1) + 1 := by
          intro i hi j hj
          rw [s1] at hi hj
          rcases List.mem_append.mp hi with hia | hia <;>
            rcases List.mem_append.mp hj with hja | hja
          · rw [hdep'rest i hia, hdep'rest j hja]
            exact hQspread i (List.mem_cons_of_mem _ hia) j
              (List.mem_cons_of_mem _ hja)
          · rw [hdep'rest i hia, hdep'add j hja]
            have := hheadle i hia
            omega
          · rw [hdep'add i hia, hdep'rest j hja]
            have := hQspread node (List.mem_cons_self _ _) j
              (List.mem_cons_of_mem _ hja)
            omega
          · rw [hdep'add i hia, hdep'add j hja]
            omega
        have hclosed' : ∀ i,
            NewSeen root S₀ (scanEdges ad (outEdges g node) (rest, S)).2 i →
            i ∉ (scanEdges ad (outEdges g node) (rest, S)).1 →
            targets.contains i = false ∧
            ∀ e ∈ outEdges g i, allowEdge ad e = true →
              (alookup (scanEdges ad (outEdges g node) (rest, S)).2 e.callee).isSome
                = true := by
          intro i hi hiQ'
          by_cases hiS : (alookup S i).isSome = true
          · by_cases hin : i = node
            · subst hin
              exact ⟨htar', fun e he ha => s5 e he ha⟩
            · have hiQ : i ∉ node :: rest := by
                intro h
                rcases List.mem_cons.mp h with h | h
                · exact hin h
                · exact hiQ' (hrestQ' i h)
              rcases hclosed i ⟨hiS, hi.2⟩ hiQ with ⟨ht, hsucc⟩
              exact ⟨ht, fun e he ha => hliftS' _ (hsucc e he ha)⟩
          · have hiadd : i ∈ added := by
              rcases (s3 i).mp hi.1 with h | h
              · exact absurd h hiS
              · exact h
            exact absurd (haddQ' i hiadd) hiQ'
        have hdepmin' : ∀ i,
            NewSeen root S₀ (scanEdges ad (outEdges g node) (rest, S)).2 i →
            ∀ p, pathOKb g ad root p i = true →
            (if (alookup S i).isSome = true then dep i else dep node + 1) ≤
              p.length := by
          intro i hi p hp
          by_cases hiS : (alookup S i).isSome = true
          · rw [if_pos hiS]
            exact hdepmin i ⟨hiS, hi.2⟩ p hp
          · rw [if_neg hiS]
            rcases List.eq_nil_or_concat p with rfl | ⟨p', e', rfl⟩
            · simp only [pathOKb, beq_iff_eq] at hp
              rw [hp] at hroot
              exact absurd hroot hiS
            · rw [List.concat_eq_append] at hp ⊢
              rcases (pathOKb_snoc g ad p' root e' i).mp hp with
                ⟨hp', hmem', hallow', hcallee'⟩
              by_cases hplen : dep node ≤ p'.length
              · simp
                omega
              · push_neg at hplen
                have hw : (alookup S e'.caller).isSome = true := by
                  apply hfrontier e'.caller p' hp'
                  intro q0 hq0
                  have : q0 = node := by have h := hq0; simp at h; omega
                  rw [this]
                  exact hplen
                exfalso
                by_cases hold : (alookup S₀ e'.caller).isSome = true
                · rcases hS₀ e'.caller hold with ⟨_, hsucc⟩
                  have := hlift _ (hsucc e' hmem' hallow')
                  rw [hcallee'] at this
                  exact absurd this hiS
                · have hwnew : NewSeen root S₀ S e'.caller :=
                    ⟨hw, Or.inr (Bool.of_not_eq_true hold)⟩
                  by_cases hwQ : e'.caller ∈ node :: rest
                  · have hdw := hdepmin e'.caller hwnew p' hp'
                    rcases List.mem_cons.mp hwQ with h | h
                    · rw [h] at hdw
                      omega
                    · have := hheadle _ h
                      omega
                  · rcases hclosed e'.caller hwnew hwQ with ⟨_, hsucc⟩
                    have := hsucc e' hmem' hallow'
                    rw [hcallee'] at this
                    exact absurd this hiS
        have hfrontier' : ∀ v p, pathOKb g ad root p v = true →
            (∀ q, (scanEdges ad (outEdges g node) (rest, S)).1.head? = some q →
              p.length < (if (alookup S q).isSome = true then dep q
                else dep node + 1)) →
            (alookup (scanEdges ad (outEdges g node) (rest, S)).2 v).isSome
              = true := by
          have hstrong : ∀ n, ∀ v p, p.length = n →
              pathOKb g ad root p v = true →
              (∀ q, (scanEdges ad (outEdges g node) (rest, S)).1.head? = some q →
                p.length < (if (alookup S q).isSome = true then dep q
                  else dep node + 1)) →
              (alookup (scanEdges ad (outEdges g node) (rest, S)).2 v).isSome
                = true := by
            intro n
            induction n using Nat.strong_induction_on with
            | _ n ihn =>
              intro v p hplen hp hprem
              rcases List.eq_nil_or_concat p with rfl | ⟨p', e', rfl⟩
              · simp only [pathOKb, beq_iff_eq] at hp
                rw [← hp]
                exact hliftS' root hroot
              · rw [List.concat_eq_append] at hp hplen hprem
                rcases (pathOKb_snoc g ad p' root e' v).mp hp with
                  ⟨hp', hmem', hallow', hcallee'⟩
                have hw : (alookup
                    (scanEdges ad (outEdges g node) (rest, S)).2 e'.caller).isSome
                    = true := by
                  apply ihn p'.length (by simp at hplen; omega) e'.caller p' rfl hp'
                  intro q hq
                  have h := hprem q hq
                  simp only [List.length_append, List.length_singleton] at h
                  omega
                by_cases hold : (alookup S₀ e'.caller).isSome = true
                · rcases hS₀ e'.caller hold with ⟨_, hsucc⟩
                  have := hlift _ (hsucc e' hmem' hallow')
                  rw [hcallee'] at this
                  exact hliftS' v this
                · have hwnew : NewSeen root S₀
                      (scanEdges ad (outEdges g node) (rest, S)).2 e'.caller :=
                    ⟨hw, Or.inr (Bool.of_not_eq_true hold)⟩
                  by_cases hwQ' : e'.caller ∈
                      (scanEdges ad (outEdges g node) (rest, S)).1
                  · exfalso
                    cases hQ'c : (scanEdges ad (outEdges g node) (rest, S)).1 with
                    | nil => rw [hQ'c] at hwQ'; exact List.not_mem_nil _ hwQ'
                    | cons q0 tl =>
                      have hq0 : (scanEdges ad
                          (outEdges g node) (rest, S)).1.head? = some q0 := by
                        rw [hQ'c]; rfl
                      have hlt := hprem q0 hq0
                      have hdq0w : (if (alookup S q0).isSome = true then dep q0
                          else dep node + 1) ≤
                          (if (alookup S e'.caller).isSome = true then dep e'.caller
                            else dep node + 1) := by
                        rw [hQ'c] at hwQ'
                        rcases List.mem_cons.mp hwQ' with h | h
                        · rw [h]
                        · have hpair := hQpair'
                          rw [hQ'c] at hpair
                          exact (List.pairwise_cons.mp hpair).1 _ h
                      have hdw := hdepmin' e'.caller hwnew p' hp'
                      simp only [List.length_append, List.length_singleton] at hlt
                      omega
                  · rcases hclosed' e'.caller hwnew hwQ' with ⟨_, hsucc⟩
                    have := hsucc e' hmem' hallow'
                    rw [hcallee'] at this
                    exact this
          intro v p hp hprem
          exact hstrong p.length v p rfl hp hprem
        have hfuel' : (scanEdges ad (outEdges g node) (rest, S)).1.length +
            ((calleeUniv g).length -
              seenCount g (scanEdges ad (outEdges g node) (rest, S)).2) < fuel := by
          simp only [List.length_cons] at hfuel
          omega
        have := ih (scanEdges ad (outEdges g node) (rest, S)).1
          (scanEdges ad (outEdges g node) (rest, S)).2
          (fun i => if (alookup S i).isSome = true then dep i else dep node + 1)
          hfuel' (hliftS' root hroot) (fun i h => hliftS' i (hlift i h))
          hdepQnew hchain' hQpair' hQspread' hclosed' hfrontier' hdepmin'
        exact this

theorem calleeUniv_le_sum (g : List (List CGEdge)) :
    (calleeUniv g).length ≤ (g.map (fun l => l.length)).sum := by
  have h1 : (calleeUniv g).length ≤ (g.flatten.map (fun e => e.callee)).length :=
    (List.dedup_sublist _).length_le
  rw [List.length_map, List.length_flatten] at h1
  exact h1

theorem ClosedFree_nil (g : List (List CGEdge)) (ad : Bool) (targets : List Nat) :
    ClosedFree g ad targets [] := by
  intro i hi
  simp [alookup] at hi

/-- One BFS run from `root` over a closed, target-free pre-seeded seen
map: a returned path is a valid, globally shortest path from `root` to a
target; no path means the resulting seen map is again closed and
target-free and no valid path from `root` reaches any target. -/
theorem bfsFrom_spec (g : List (List CGEdge)) (ad : Bool) (targets : List Nat)
    (root : Nat) (S₀ : List (Nat × Option CGEdge))
    (hWF : ∀ i, ∀ e ∈ outEdges g i, e.caller = i)
    (hS₀ : ClosedFree g ad targets S₀) :
    (∀ p S', bfsFrom g ad targets root S₀ = (some p, S') →
        (∃ t, targets.contains t = true ∧ pathOKb g ad root p t = true) ∧
        (∀ t q, targets.contains t = true → pathOKb g ad root q t = true →
          p.length ≤ q.length)) ∧
    (∀ S', bfsFrom g ad targets root S₀ = (none, S') →
        ClosedFree g ad targets S' ∧
        (∀ i, (alookup S₀ i).isSome = true → (alookup S' i).isSome = true) ∧
        (∀ t p, targets.contains t = true → pathOKb g ad root p t = true →
          False)) := by
  have hroot : (alookup (upsert S₀ root none) root).isSome = true := by
    rw [alookup_upsert_self]; rfl
  have hlift : ∀ i, (alookup S₀ i).isSome = true →
      (alookup (upsert S₀ root none) i).isSome = true := by
    intro i h
    by_cases hir : i = root
    · subst hir; exact hroot
    · rw [alookup_upsert_ne _ _ _ _ hir]; exact h
  have hnewroot : ∀ i, NewSeen root S₀ (upsert S₀ root none) i → i = root := by
    intro i hi
    obtain ⟨hs, hor⟩ := hi
    by_cases hir : i = root
    · exact hir
    · exfalso
      rcases hor with h | h
      · exact hir h
      · rw [alookup_upsert_ne _ _ _ _ hir] at hs
        rw [h] at hs
        simp at hs
  have hfuel : [root].length +
      ((calleeUniv g).length - seenCount g (upsert S₀ root none)) < bfsFuel g := by
    have := calleeUniv_le_sum g
    simp only [bfsFuel, List.length_cons, List.length_nil]
    omega
  have hQnew : ∀ i ∈ [root], NewSeen root S₀ (upsert S₀ root none) i := by
    intro i hi
    have : i = root := by simpa using hi
    subst this
    exact ⟨hroot, Or.inl rfl⟩
  have hchain : ∀ i, NewSeen root S₀ (upsert S₀ root none) i →
      ∃ p, rebuildPath (upsert S₀ root none) i
          ((upsert S₀ root none).length + 1) [] = some p ∧
        pathOKb g ad root p i = true ∧ p.length = (fun _ : Nat => 0) i := by
    intro i hi
    have := hnewroot i hi
    subst this
    refine ⟨[], ?_, ?_, rfl⟩
    · simp [rebuildPath, alookup_upsert_self]
    · simp [pathOKb]
  have hQpair : ([root]).Pairwise
      (fun i j => (fun _ : Nat => 0) i ≤ (fun _ : Nat => 0) j) := by
    simp
  have hQspread : ∀ i ∈ [root], ∀ j ∈ [root],
      (fun _ : Nat => 0) j ≤ (fun _ : Nat => 0) i + 1 := by
    intro i _ j _
    simp
  have hclosed : ∀ i, NewSeen root S₀ (upsert S₀ root none) i → i ∉ [root] →
      targets.contains i = false ∧
      ∀ e ∈ outEdges g i, allowEdge ad e = true →
        (alookup (upsert S₀ root none) e.callee).isSome = true := by
    intro i hi hnot
    exfalso
    have := hnewroot i hi
    subst this
    simp at hnot
  have hfrontier : ∀ v p, pathOKb g ad root p v = true →
      (∀ q, ([root]).head? = some q → p.length < (fun _ : Nat => 0) q) →
      (alookup (upsert S₀ root none) v).isSome = true := by
    intro v p _ hpre
    have := hpre root rfl
    exact absurd this (by simp)
  have hdepmin : ∀ i, NewSeen root S₀ (upsert S₀ root none) i →
      ∀ p, pathOKb g ad root p i = true → (fun _ : Nat => 0) i ≤ p.length := by
    intro i _ p _
    exact Nat.zero_le _
  have hmaster := bfsLoop_master g ad targets root S₀ hWF hS₀ (bfsFuel g)
    [root] (upsert S₀ root none) (fun _ => 0) hfuel hroot hlift hQnew hchain
    hQpair hQspread hclosed hfrontier hdepmin
  unfold bfsFrom
  exact hmaster

/-- A pass that returns no path proves that no in-graph root of the list
reaches any target through admitted edges. -/
theorem searchPass_none (g : List (List CGEdge)) (ad : Bool) (targets : List Nat)
    (hWF : ∀ i, ∀ e ∈ outEdges g i, e.caller = i) :
    ∀ (roots : List Nat) (S₀ : List (Nat × Option CGEdge)),
    ClosedFree g ad targets S₀ →
    searchPass g ad targets roots S₀ = none →
    ∀ r ∈ roots, r < g.length →
    ∀ t p, targets.contains t = true → pathOKb g ad r p t = true → False := by
  intro roots
  induction roots with
  | nil =>
    intro S₀ _ _ r hr
    exact absurd hr (List.not_mem_nil r)
  | cons r0 rest ih =>
    intro S₀ hS₀ hnone r hr hrg t p ht hp
    simp only [searchPass] at hnone
    by_cases hskip : g.length ≤ r0
    · rw [if_pos hskip] at hnone
      rcases List.mem_cons.mp hr with rfl | hr'
      · omega
      · exact ih S₀ hS₀ hnone r hr' hrg t p ht hp
    · rw [if_neg hskip] at hnone
      rcases hbfs : bfsFrom g ad targets r0 S₀ with ⟨res, seen'⟩
      rw [hbfs] at hnone
      cases res with
      | some path => simp at hnone
      | none =>
        simp only [] at hnone
        obtain ⟨hcf, _, hnoreach⟩ :=
          (bfsFrom_spec g ad targets r0 S₀ hWF hS₀).2 seen' hbfs
        rcases List.mem_cons.mp hr with rfl | hr'
        · exact hnoreach t p ht hp
        · exact ih seen' hcf hnone r hr' hrg t p ht hp

/-- A pass that returns `(r, p)` returns the first root with a path, and
`p` is a globally shortest path from `r` to a target. -/
theorem searchPass_some (g : List (List CGEdge)) (ad : Bool) (targets : List Nat)
    (hWF : ∀ i, ∀ e ∈ outEdges g i, e.caller = i) :
    ∀ (roots : List Nat) (S₀ : List (Nat × Option CGEdge)),
    ClosedFree g ad targets S₀ →
    ∀ r p, searchPass g ad targets roots S₀ = some (r, p) →
    r ∈ roots ∧ r < g.length ∧
    (∃ t, targets.contains t = true ∧ pathOKb g ad r p t = true) ∧
    (∀ t q, targets.contains t = true → pathOKb g ad r q t = true →
      p.length ≤ q.length) ∧
    ∃ pre post, roots = pre ++ r :: post ∧
      ∀ r' ∈ pre, r' < g.length →
        ∀ t q, targets.contains t = true → pathOKb g ad r' q t = true → False := by
  intro roots
  induction roots with
  | nil =>
    intro S₀ _ r p h
    simp [searchPass] at h
  | cons r0 rest ih =>
    intro S₀ hS₀ r p hsome
    simp only [searchPass] at hsome
    by_cases hskip : g.length ≤ r0
    · rw [if_pos hskip] at hsome
      obtain ⟨hmem, hrg, hex, hmin, pre', post', heq, hpre⟩ := ih S₀ hS₀ r p hsome
      refine ⟨List.mem_cons_of_mem _ hmem, hrg, hex, hmin, r0 :: pre', post',
        by simp [heq], ?_⟩
      intro r' hr' hr'g t q ht hq
      rcases List.mem_cons.mp hr' with rfl | h
      · omega
      · exact hpre r' h hr'g t q ht hq
    · rw [if_neg hskip] at hsome
      rcases hbfs : bfsFrom g ad targets r0 S₀ with ⟨res, seen'⟩
      rw [hbfs] at hsome
      cases res with
      | some path =>
        simp only [] at hsome
        have hrp : r0 = r ∧ path = p := by
          have := hsome
          simp at this
          exact this
        obtain ⟨h1, h2⟩ := hrp
        subst h1
        subst h2
        have hspec := (bfsFrom_spec g ad targets r0 S₀ hWF hS₀).1 path seen' hbfs
        refine ⟨List.mem_cons_self _ _, by omega, hspec.1, hspec.2, [], rest,
          rfl, ?_⟩
        intro r' hr'
        exact absurd hr' (List.not_mem_nil r')
      | none =>
        simp only [] at hsome
        obtain ⟨hcf, _, hnothing⟩ :=
          (bfsFrom_spec g ad targets r0 S₀ hWF hS₀).2 seen' hbfs
        obtain ⟨hmem, hrg, hex, hmin, pre', post', heq, hpre⟩ :=
          ih seen' hcf r p hsome
        refine ⟨List.mem_cons_of_mem _ hmem, hrg, hex, hmin, r0 :: pre', post',
          by simp [heq], ?_⟩
        intro r' hr' hr'g t q ht hq
        rcases List.mem_cons.mp hr' with rfl | h
        · exact hnothing t q ht hq
        · exact hpre r' h hr'g t q ht hq

theorem rootLess_eq_rank (fns : List DFn) (x y : Nat) :
    rootLess fns x y = decide (rootRank fns x < rootRank fns y) := by
  unfold rootLess rootRank
  cases importsTestingB fns x <;> cases importsTestingB fns y <;>
    cases isInitRootB fns x <;> cases isInitRootB fns y <;> simp

theorem rootLess_negtrans (fns : List DFn) (a b c : Nat)
    (h1 : rootLess fns b a = false) (h2 : rootLess fns c b = false) :
    rootLess fns c a = false := by
  rw [rootLess_eq_rank] at h1 h2 ⊢
  simp only [decide_eq_false_iff_not] at h1 h2 ⊢
  omega

theorem rootLess_asym (fns : List DFn) (a b : Nat)
    (h : rootLess fns a b = true) : rootLess fns b a = false := by
  rw [rootLess_eq_rank] at h ⊢
  simp only [decide_eq_true_eq] at h
  simp only [decide_eq_false_iff_not]
  omega

/-- A successful `pathSearchWith` result: the returned root is the first
sorted root that reaches a target in the pass that produced the path, the
path is a globally shortest admitted path from it, and a dynamic-pass
result certifies that the static pass found nothing anywhere. -/
theorem pathSearchWith_some_spec (less : Nat → Nat → Bool)
    (g : List (List CGEdge)) (roots targets : List Nat)
    (hWF : ∀ i, ∀ e ∈ outEdges g i, e.caller = i) :
    ∀ r p, pathSearchWith less g roots targets = some (r, p) →
    r ∈ roots ∧ r < g.length ∧
    ∃ ad, (∃ t, targets.contains t = true ∧ pathOKb g ad r p t = true) ∧
      (∀ t q, targets.contains t = true → pathOKb g ad r q t = true →
        p.length ≤ q.length) ∧
      (∃ pre post, insSortBy less roots = pre ++ r :: post ∧
        ∀ r' ∈ pre, r' < g.length → ∀ t q, targets.contains t = true →
          pathOKb g ad r' q t = true → False) ∧
      (ad = true → ∀ r' ∈ roots, r' < g.length → ∀ t q,
        targets.contains t = true → pathOKb g false r' q t = true → False) := by
  intro r p hps
  simp only [pathSearchWith] at hps
  rcases h1 : searchPass g false targets (insSortBy less roots) [] with _ | rp
  · rw [h1] at hps
    simp only [] at hps
    obtain ⟨hmem, hrg, hex, hmin, pre, post, hsplit, hpre⟩ :=
      searchPass_some g true targets hWF (insSortBy less roots) []
        (ClosedFree_nil g true targets) r p hps
    refine ⟨(perm_insSortBy less roots).mem_iff.mp hmem, hrg, true, hex, hmin,
      ⟨pre, post, hsplit, hpre⟩, ?_⟩
    intro _ r' hr' hr'g t q ht hq
    exact searchPass_none g false targets hWF (insSortBy less roots) []
      (ClosedFree_nil g false targets) h1 r'
      ((perm_insSortBy less roots).mem_iff.mpr hr') hr'g t q ht hq
  · rw [h1] at hps
    simp only [] at hps
    have hrp : rp = (r, p) := by
      cases hps
      rfl
    rw [hrp] at h1
    obtain ⟨hmem, hrg, hex, hmin, pre, post, hsplit, hpre⟩ :=
      searchPass_some g false targets hWF (insSortBy less roots) []
        (ClosedFree_nil g false targets) r p h1
    refine ⟨(perm_insSortBy less roots).mem_iff.mp hmem, hrg, false, hex, hmin,
      ⟨pre, post, hsplit, hpre⟩, ?_⟩
    intro h
    simp at h

/-- A `pathSearchWith` failure proves that no in-graph root reaches any
target even with dynamic edges admitted. -/
theorem pathSearchWith_none_spec (less : Nat → Nat → Bool)
    (g : List (List CGEdge)) (roots targets : List Nat)
    (hWF : ∀ i, ∀ e ∈ outEdges g i, e.caller = i) :
    pathSearchWith less g roots targets = none →
    ∀ r ∈ roots, r < g.length → ∀ t q, targets.contains t = true →
      pathOKb g true r q t = true → False := by
  intro hps r hr hrg t q ht hq
  simp only [pathSearchWith] at hps
  rcases h1 : searchPass g false targets (insSortBy less roots) [] with _ | rp
  · rw [h1] at hps
    simp only [] at hps
    exact searchPass_none g true targets hWF (insSortBy less roots) []
      (ClosedFree_nil g true targets) hps r
      ((perm_insSortBy less roots).mem_iff.mpr hr) hrg t q ht hq
  · rw [h1] at hps
    simp at hps

/-- Completeness: if no in-graph root reaches any target with dynamic
edges admitted, `pathSearchWith` returns nothing. -/
theorem pathSearchWith_complete (less : Nat → Nat → Bool)
    (g : List (List CGEdge)) (roots targets : List Nat)
    (hWF : ∀ i, ∀ e ∈ outEdges g i, e.caller = i)
    (hno : ∀ r ∈ roots, r < g.length → ∀ t q, targets.contains t = true →
      pathOKb g true r q t = true → False) :
    pathSearchWith less g roots targets = none := by
  rcases hps : pathSearchWith less g roots targets with _ | rp
  · rfl
  · exfalso
    obtain ⟨hmem, hrg, ad, ⟨t, ht, hpath⟩, _⟩ :=
      pathSearchWith_some_spec less g roots targets hWF rp.1 rp.2
        (by rw [hps])
    have hdyn : pathOKb g true rp.1 rp.2 t = true := by
      cases ad with
      | true => exact hpath
      | false => exact pathOKb_mono_ad g rp.2 rp.1 t hpath
    exact hno rp.1 hmem hrg t rp.2 ht hdyn

/-- Fixture for the root-ordering divergence: package `a` imports
package `b`, which imports `testing`; package `c` imports nothing. -/
def c5pkgs : List DPkgRef :=
  [⟨"a", "a", ["b"]⟩, ⟨"b", "b", ["testing"]⟩, ⟨"c", "c", []⟩]

/-- Fixture roots and target: `main` of package `a` (node 0), `main` of
package `c` (node 1) and a shared callee `T` (node 2). -/
def c5fns : List DFn :=
  [{ name := "main", pkg := some ⟨"a", "a", ["b"]⟩, pos := ⟨"a.go", 1, 1⟩,
     recv := none, sigParams := [], sigResults := [], bodyStmtCount := some 1,
     anonIdx := [] },
   { name := "main", pkg := some ⟨"c", "c", []⟩, pos := ⟨"c.go", 1, 1⟩,
     recv := none, sigParams := [], sigResults := [], bodyStmtCount := some 1,
     anonIdx := [] },
   { name := "T", pkg := some ⟨"c", "c", []⟩, pos := ⟨"c.go", 9, 1⟩,
     recv := none, sigParams := [], sigResults := [], bodyStmtCount := some 1,
     anonIdx := [] }]

/-- Fixture call graph: both mains call node 2 statically. -/
def c5g : List (List CGEdge) :=
  [[⟨0, 2, true, ⟨"a.go", 2, 1⟩⟩], [⟨1, 2, true, ⟨"c.go", 2, 1⟩⟩], []]

/-- C5 counterexample: the root comparator tests only DIRECT imports of
`testing`, so a root whose package reaches `testing` only transitively
(`a` imports `b` imports `testing`) is not deprioritised: `pathSearch`
answers from node 0, while the comparator built from the spec's
transitive-import wording answers from node 1. -/
theorem c5_counterexample_transitive_testing :
    pathSearch c5fns c5g [0, 1] [2] =
      some (0, [⟨0, 2, true, ⟨"a.go", 2, 1⟩⟩]) ∧
    pathSearchWith (rootLessSpec c5pkgs c5fns) c5g [0, 1] [2] =
      some (1, [⟨1, 2, true, ⟨"c.go", 2, 1⟩⟩]) ∧
    pathSearch c5fns c5g [0, 1] [2] ≠
      pathSearchWith (rootLessSpec c5pkgs c5fns) c5g [0, 1] [2] := by
  refine ⟨by decide, by decide, by decide⟩

/-- C5 (amended): the `-whylive` path search sorts the roots stably by
the realised preference rank (packages not DIRECTLY importing `testing`
first, then `main`s before `init`s), runs a static-edge pass and then,
only if it found nothing, a dynamic pass; a result is a globally
shortest admitted path from the first sorted root that reaches a target,
and a dynamic-pass result certifies that no root reaches a target
statically; failure certifies that no in-graph root reaches a target at
all. -/
theorem c5_amended_path_search (fns : List DFn) (g : List (List CGEdge))
    (roots targets : List Nat)
    (hWF : ∀ i, ∀ e ∈ outEdges g i, e.caller = i) :
    (insSortBy (rootLess fns) roots).Perm roots ∧
    (insSortBy (rootLess fns) roots).Pairwise
      (fun i j => rootRank fns i ≤ rootRank fns j) ∧
    (∀ k, (insSortBy (rootLess fns) roots).filter
        (fun i => rootRank fns i == k) =
      roots.filter (fun i => rootRank fns i == k)) ∧
    (∀ r p, pathSearch fns g roots targets = some (r, p) →
      r ∈ roots ∧ r < g.length ∧
      ∃ ad, (∃ t, targets.contains t = true ∧ pathOKb g ad r p t = true) ∧
        (∀ t q, targets.contains t = true → pathOKb g ad r q t = true →
          p.length ≤ q.length) ∧
        (∃ pre post, insSortBy (rootLess fns) roots = pre ++ r :: post ∧
          ∀ r' ∈ pre, r' < g.length → ∀ t q, targets.contains t = true →
            pathOKb g ad r' q t = true → False) ∧
        (ad = true → ∀ r' ∈ roots, r' < g.length → ∀ t q,
          targets.contains t = true → pathOKb g false r' q t = true → False)) ∧
    (pathSearch fns g roots targets = none →
      ∀ r ∈ roots, r < g.length → ∀ t q, targets.contains t = true →
        pathOKb g true r q t = true → False) := by
  refine ⟨perm_insSortBy _ _, ?_, ?_, ?_, ?_⟩
  · have hpw := pairwise_insSortBy (rootLess fns)
      (rootLess_negtrans fns) (rootLess_asym fns) roots
    apply hpw.imp
    intro a b hab
    rw [rootLess_eq_rank] at hab
    simp only [decide_eq_false_iff_not] at hab
    omega
  · intro k
    apply filter_insSortBy_stable
    intro a b ha hb
    rw [rootLess_eq_rank]
    simp only [beq_iff_eq] at ha hb
    simp only [decide_eq_false_iff_not]
    omega
  · intro r p hps
    exact pathSearchWith_some_spec (rootLess fns) g roots targets hWF r p hps
  · intro hps
    exact pathSearchWith_none_spec (rootLess fns) g roots targets hWF hps

theorem c5_amended_path_search_witness :
    (insSortBy (rootLess c5fns) [0, 1]).Perm [0, 1] :=
  (c5_amended_path_search c5fns c5g [0, 1] [2]
    (by
      intro i e he
      rcases i with _ | _ | _ | n
      · simp only [outEdges, c5g] at he
        simp at he
        rw [he]
      · simp only [outEdges, c5g] at he
        simp at he
        rw [he]
      · simp only [outEdges, c5g] at he
        simp at he
      · rw [outEdges, List.getD_eq_default] at he
        · exact absurd he (List.not_mem_nil e)
        · simp [c5g])).1

/-- The `-whylive` target set: source functions whose qualified pretty
name equals the query. -/
def whyTargets (fns : List DFn) (whyLive : String)
    (sourceFuncs : List Nat) : List Nat :=
  sourceFuncs.filter
    (fun i => prettyName (fns.getD i default) true == whyLive)

/-- The reachable `-whylive` targets, filtered by position against the
reachable set. -/
def whyTargetsReach (fns : List DFn) (whyLive : String)
    (sourceFuncs : List Nat) (reachablePosn : List Position) : List Nat :=
  (whyTargets fns whyLive sourceFuncs).filter
    (fun i => reachablePosn.contains (fns.getD i default).pos)

/-- C6: `handleWhyLive` produces exactly one outcome, with the claimed
precedence: NotFound iff no source function matches the query; IsDead
iff matches exist but none is reachable; ReflectiveOnly iff a reachable
match exists but no in-graph root reaches one even with dynamic edges;
IsRoot only for a root that is itself a reachable target (empty path);
and a found path is a nonempty admitted path from a root to a reachable
target, shortest in its pass. -/
theorem c6_whylive_outcomes (fns : List DFn) (whyLive : String)
    (sourceFuncs : List Nat) (reachablePosn : List Position)
    (roots : List Nat) (g : List (List CGEdge))
    (hWF : ∀ i, ∀ e ∈ outEdges g i, e.caller = i) :
    (handleWhyLive fns whyLive sourceFuncs reachablePosn roots g =
        WhyLiveResult.notFound ↔ whyTargets fns whyLive sourceFuncs = []) ∧
    (handleWhyLive fns whyLive sourceFuncs reachablePosn roots g =
        WhyLiveResult.isDead ↔
      whyTargets fns whyLive sourceFuncs ≠ [] ∧
        whyTargetsReach fns whyLive sourceFuncs reachablePosn = []) ∧
    (handleWhyLive fns whyLive sourceFuncs reachablePosn roots g =
        WhyLiveResult.reflectiveOnly ↔
      whyTargets fns whyLive sourceFuncs ≠ [] ∧
        whyTargetsReach fns whyLive sourceFuncs reachablePosn ≠ [] ∧
        ∀ r ∈ roots, r < g.length → ∀ t q,
          (whyTargetsReach fns whyLive sourceFuncs reachablePosn).contains t
            = true →
          pathOKb g true r q t = true → False) ∧
    (∀ r, handleWhyLive fns whyLive sourceFuncs reachablePosn roots g =
        WhyLiveResult.isRoot r →
      r ∈ roots ∧
        (whyTargetsReach fns whyLive sourceFuncs reachablePosn).contains r
          = true) ∧
    (∀ r p, handleWhyLive fns whyLive sourceFuncs reachablePosn roots g =
        WhyLiveResult.pathFound r p →
      r ∈ roots ∧ p ≠ [] ∧ ∃ ad t,
        (whyTargetsReach fns whyLive sourceFuncs reachablePosn).contains t
          = true ∧
        pathOKb g ad r p t = true ∧
        ∀ t' q, (whyTargetsReach fns whyLive sourceFuncs
            reachablePosn).contains t' = true →
          pathOKb g ad r q t' = true → p.length ≤ q.length) := by
  have heq : handleWhyLive fns whyLive sourceFuncs reachablePosn roots g =
      (if (whyTargets fns whyLive sourceFuncs).isEmpty then
        WhyLiveResult.notFound
       else if (whyTargetsReach fns whyLive sourceFuncs
           reachablePosn).isEmpty then WhyLiveResult.isDead
       else
         match pathSearch fns g roots
             (whyTargetsReach fns whyLive sourceFuncs reachablePosn) with
         | none => WhyLiveResult.reflectiveOnly
         | some (r, path) =>
           if path.isEmpty then WhyLiveResult.isRoot r
           else WhyLiveResult.pathFound r path) := rfl
  by_cases hT : (whyTargets fns whyLive sourceFuncs).isEmpty = true
  · rw [if_pos hT] at heq
    have hTnil : whyTargets fns whyLive sourceFuncs = [] :=
      List.isEmpty_iff.mp hT
    refine ⟨⟨fun _ => hTnil, fun _ => heq⟩, ?_, ?_, ?_, ?_⟩
    · constructor
      · intro h
        rw [heq] at h
        exact WhyLiveResult.noConfusion h
      · intro h
        exact absurd hTnil h.1
    · constructor
      · intro h
        rw [heq] at h
        exact WhyLiveResult.noConfusion h
      · intro h
        exact absurd hTnil h.1
    · intro r h
      rw [heq] at h
      exact WhyLiveResult.noConfusion h
    · intro r p h
      rw [heq] at h
      exact WhyLiveResult.noConfusion h
  · rw [if_neg hT] at heq
    have hTne : whyTargets fns whyLive sourceFuncs ≠ [] := by
      intro h
      apply hT
      rw [h]
      rfl
    by_cases hTR : (whyTargetsReach fns whyLive sourceFuncs
        reachablePosn).isEmpty = true
    · rw [if_pos hTR] at heq
      have hTRnil : whyTargetsReach fns whyLive sourceFuncs reachablePosn
          = [] := List.isEmpty_iff.mp hTR
      refine ⟨?_, ⟨fun _ => ⟨hTne, hTRnil⟩, fun _ => heq⟩, ?_, ?_, ?_⟩
      · constructor
        · intro h
          rw [heq] at h
          exact WhyLiveResult.noConfusion h
        · intro h
          exact absurd h hTne
      · constructor
        · intro h
          rw [heq] at h
          exact WhyLiveResult.noConfusion h
        · intro h
          exact absurd hTRnil h.2.1
      · intro r h
        rw [heq] at h
        exact WhyLiveResult.noConfusion h
      · intro r p h
        rw [heq] at h
        exact WhyLiveResult.noConfusion h
    · rw [if_neg hTR] at heq
      have hTRne : whyTargetsReach fns whyLive sourceFuncs reachablePosn
          ≠ [] := by
        intro h
        apply hTR
        rw [h]
        rfl
      rcases hps : pathSearch fns g roots
          (whyTargetsReach fns whyLive sourceFuncs reachablePosn) with _ | rp
      · have heq2 : handleWhyLive fns whyLive sourceFuncs reachablePosn
            roots g = WhyLiveResult.reflectiveOnly := by
          rw [heq, hps]
        have hnopath := pathSearchWith_none_spec (rootLess fns) g roots
          (whyTargetsReach fns whyLive sourceFuncs reachablePosn) hWF hps
        refine ⟨?_, ?_, ⟨fun _ => ⟨hTne, hTRne, hnopath⟩, fun _ => heq2⟩,
          ?_, ?_⟩
        · constructor
          · intro h
            rw [heq2] at h
            exact WhyLiveResult.noConfusion h
          · intro h
            exact absurd h hTne
        · constructor
          · intro h
            rw [heq2] at h
            exact WhyLiveResult.noConfusion h
          · intro h
            exact absurd h.2 hTRne
        · intro r h
          rw [heq2] at h
          exact WhyLiveResult.noConfusion h
        · intro r p h
          rw [heq2] at h
          exact WhyLiveResult.noConfusion h
      · rcases rp with ⟨r0, path0⟩
        obtain ⟨hmem, hrg, ad, ⟨t, ht, hpath⟩, hmin, _, _⟩ :=
          pathSearchWith_some_spec (rootLess fns) g roots
            (whyTargetsReach fns whyLive sourceFuncs reachablePosn)
            hWF r0 path0 hps
        have hcomplete_not : ¬ (∀ r ∈ roots, r < g.length → ∀ t' q,
            (whyTargetsReach fns whyLive sourceFuncs
              reachablePosn).contains t' = true →
            pathOKb g true r q t' = true → False) := by
          intro hno
          have h2 : pathSearch fns g roots
              (whyTargetsReach fns whyLive sourceFuncs reachablePosn) = none :=
            pathSearchWith_complete (rootLess fns) g roots
              (whyTargetsReach fns whyLive sourceFuncs reachablePosn) hWF hno
          rw [hps] at h2
          exact Option.noConfusion h2
        by_cases hpe : path0.isEmpty = true
        · have heq2 : handleWhyLive fns whyLive sourceFuncs reachablePosn
              roots g = WhyLiveResult.isRoot r0 := by
            rw [heq, hps]
            simp [hpe]
          have hp0nil : path0 = [] := List.isEmpty_iff.mp hpe
          refine ⟨?_, ?_, ?_, ?_, ?_⟩
          · constructor
            · intro h
              rw [heq2] at h
              exact WhyLiveResult.noConfusion h
            · intro h
              exact absurd h hTne
          · constructor
            · intro h
              rw [heq2] at h
              exact WhyLiveResult.noConfusion h
            · intro h
              exact absurd h.2 hTRne
          · constructor
            · intro h
              rw [heq2] at h
              exact WhyLiveResult.noConfusion h
            · intro h
              exact absurd h.2.2 hcomplete_not
          · intro r h
            rw [heq2] at h
            have hrr : r0 = r := by
              cases h
              rfl
            subst hrr
            refine ⟨hmem, ?_⟩
            rw [hp0nil] at hpath
            simp only [pathOKb, beq_iff_eq] at hpath
            rw [hpath]
            exact ht
          · intro r p h
            rw [heq2] at h
            exact WhyLiveResult.noConfusion h
        · have heq2 : handleWhyLive fns whyLive sourceFuncs reachablePosn
              roots g = WhyLiveResult.pathFound r0 path0 := by
            rw [heq, hps]
            simp [hpe]
          refine ⟨?_, ?_, ?_, ?_, ?_⟩
          · constructor
            · intro h
              rw [heq2] at h
              exact WhyLiveResult.noConfusion h
            · intro h
              exact absurd h hTne
          · constructor
            · intro h
              rw [heq2] at h
              exact WhyLiveResult.noConfusion h
            · intro h
              exact absurd h.2 hTRne
          · constructor
            · intro h
              rw [heq2] at h
              exact WhyLiveResult.noConfusion h
            · intro h
              exact absurd h.2.2 hcomplete_not
          · intro r h
            rw [heq2] at h
            exact WhyLiveResult.noConfusion h
          · intro r p h
            rw [heq2] at h
            have hrr : r0 = r ∧ path0 = p := by
              cases h
              exact ⟨rfl, rfl⟩
            obtain ⟨h1, h2⟩ := hrr
            subst h1
            subst h2
            refine ⟨hmem, ?_, ad, t, ht, hpath, hmin⟩
            intro hnil
            rw [hnil] at hpe
            exact hpe rfl

theorem c6_whylive_outcomes_witness :
    handleWhyLive [] "q" [] [] [] [] = WhyLiveResult.notFound :=
  ((c6_whylive_outcomes [] "q" [] [] [] []
    (by
      intro i e he
      rw [outEdges, List.getD_eq_default] at he
      · exact absurd he (List.not_mem_nil e)
      · exact Nat.zero_le i)).1).mpr rfl

end OverDead
